import Mathlib

/-
Verification of the playground orchestration engine against its
natural-language specification.

The development shallowly embeds the planner (core::generate /
core::generate_one), the deployment executor (core::deploy), the teardown
routine (core::cleanup), the partition schedule parser and background loop
(partition.rs), and the JSON wire format of the per-host plan (core::Data,
supervisor::CommandConfig).

Modelling conventions:
- Rust BTreeMap<usize, V> values are represented as association lists
  `List (Nat × V)` kept in ascending key order; the planner only ever
  inserts strictly increasing keys, so insertion is list construction in
  order, and BTreeMap value iteration is plain list traversal.
- The address pool (ipnet::IpAddrRange over the configured CIDR) is an
  iterator yielding pairwise-distinct addresses in increasing order; it is
  modelled by a cursor `next` (abstract numeric position of the next
  address inside the range) and a count `remaining` of addresses left.
- Machine integers (usize, u32, u16) are Nat; none of the embedded
  arithmetic can overflow within the quantities the claims touch.
- Rust panics (integer division by zero) are an explicit `RRes.panicked`
  outcome, distinct from `Result::Err`.
- Kernel verbs (netlink / iproute2 / tc / iptables) are effects recorded
  in a trace of `Event` values; the forward verbs are modelled as
  succeeding, teardown verbs take a success oracle because cleanup is
  specified to continue past failures.
-/

set_option maxHeartbeats 1000000

namespace Playground

/-- Deployment state of one kernel object, from core::State. -/
inductive State where
  | Pending
  | Deployed
  | Deleting
  | Failed
deriving DecidableEq, Repr, Inhabited

/-- Model of ipnet::IpNet as carried in plans: an address plus its prefix
length.  The address component is the abstract numeric position of the
address inside the configured pool (see the Pool model). -/
structure IpNet where
  addr : Nat
  prefixLen : Nat
deriving DecidableEq, Repr, Inhabited

/-- Modelled from the spec: the `network` module of the playground library
crate is not under src/ (the network.rs present belongs to an older
prototype crate); spec section 3 fixes the namespace name format
as the prefix, a dash, and the dense 0-based instance index. -/
structure Namespace where
  name : String
deriving DecidableEq, Repr, Inhabited

/-- Modelled from the spec: Namespace::new as used by core::generate_one. -/
def Namespace.new (pfx : String) (index : Nat) : Namespace :=
  ⟨pfx ++ "-" ++ Nat.repr index⟩

/-- Modelled from the spec: a bridge named by prefix and bridge index,
owning the first pool address allocated to it (spec section 3). -/
structure Bridge where
  index : Nat
  name : String
  addr : IpNet
deriving DecidableEq, Repr, Inhabited

/-- Modelled from the spec: Bridge::new(index, prefix, addr) as called by
core::generate_one; the name format is the prefix, the letter b, and the
bridge index. -/
def Bridge.new (index : Nat) (pfx : String) (addr : IpNet) : Bridge :=
  ⟨index, pfx ++ "b" ++ Nat.repr index, addr⟩

/-- Modelled from the spec: a veth pair owned by a namespace; the guest
side carries the pool address (spec section 3). -/
structure NamespaceVeth where
  addr : IpNet
  ns : Namespace
deriving DecidableEq, Repr, Inhabited

/-- Modelled from the spec: NamespaceVeth::new(addr, namespace) as called
by core::generate_one. -/
def NamespaceVeth.new (addr : IpNet) (ns : Namespace) : NamespaceVeth :=
  ⟨addr, ns⟩

/-- Vxlan device description, from core::generate_one and shell.rs usage:
name, id, udp port, multicast group, carrier device.  The multicast group
(std::net::Ipv4Addr) is abstracted to its numeric value. -/
structure Vxlan where
  name : String
  id : Nat
  port : Nat
  group : Nat
  device : String
deriving DecidableEq, Repr, Inhabited

/-- Optional tbf and netem option strings, from core::generate_one. -/
structure Qdisc where
  tbf : Option String
  netem : Option String
deriving DecidableEq, Repr, Inhabited

/-- One BTreeMap<usize, (V, State)> of core::Data, as an association list
in ascending key order. -/
abbrev EntryMap (α : Type) := List (Nat × α × State)

/-- Keys of an entry map, in iteration order. -/
def EntryMap.keys (m : EntryMap α) : List Nat := m.map (·.1)

/-- Values of an entry map (without states), in iteration order. -/
def EntryMap.values (m : EntryMap α) : List α := m.map (·.2.1)

/-- BTreeMap::get: first entry with the given key. -/
def EntryMap.get (m : EntryMap α) (k : Nat) : Option (α × State) :=
  match m with
  | [] => none
  | (k', v) :: rest => if k' = k then some v else EntryMap.get rest k

/-- BTreeMap::get_mut followed by a state write: replaces the state of the
first entry with the given key. -/
def EntryMap.setState (m : EntryMap α) (k : Nat) (s : State) : EntryMap α :=
  match m with
  | [] => []
  | (k', (a, s')) :: rest =>
    if k' = k then (k', (a, s)) :: rest else (k', (a, s')) :: EntryMap.setState rest k s

/-- The per-host plan, from core::Data. -/
structure Data where
  vxlan : EntryMap Vxlan
  bridges : EntryMap Bridge
  veth : EntryMap NamespaceVeth
  qdisc : EntryMap Qdisc
deriving DecidableEq, Repr, Inhabited

/-- Planner configuration, from core::Config.  The user prefix is `pfx`
(the Rust field is named like the object-name prefix of spec section 3). -/
structure Config where
  pfx : String
  net : IpNet
  per_bridge : Nat
  vxlan_id : Nat
  vxlan_port : Nat
  vxlan_multicast_group : Nat
deriving DecidableEq, Repr, Inhabited

/-- Host description, from core::Host. -/
structure Host where
  name : String
  vxlan_device : String
deriving DecidableEq, Repr, Inhabited

/-- The address pool: model of the ipnet::IpAddrRange iterator handed to
the planner.  `next` is the numeric position of the next unconsumed
address, `remaining` how many addresses the range still holds; successive
addresses are pairwise distinct and increasing. -/
structure Pool where
  next : Nat
  remaining : Nat
deriving DecidableEq, Repr, Inhabited

/-- Outcome of a Rust function: Ok, Err, or a panic (used for integer
division by zero, which aborts instead of returning Err). -/
inductive RRes (α : Type) where
  | ok (val : α)
  | err (msg : String)
  | panicked (msg : String)
deriving DecidableEq, Repr

/-- Model of core::next_addr: draw the next pool address and give it the
configured prefix length (IpNet::new with the prefix length taken from a
valid configured CIDR cannot fail). -/
def next_addr (cfg : Config) (pool : Pool) : Except String (IpNet × Pool) :=
  match pool.remaining with
  | 0 => .error "run out of ip addresses"
  | r + 1 => .ok (⟨pool.next, cfg.net.prefixLen⟩, ⟨pool.next + 1, r⟩)

/-- Qdisc stream element: (tbf options, netem options), from the iterator
argument of core::generate. -/
abbrev QOpt := Option String × Option String

/-- The bridge-construction loop of core::generate_one: for each bridge
index draw one pool address and insert the bridge keyed by its index. -/
def genBridges (cfg : Config) (start rem : Nat) (pool : Pool) :
    Except String (EntryMap Bridge × Pool) :=
  match rem with
  | 0 => .ok ([], pool)
  | r + 1 =>
    match next_addr cfg pool with
    | .error e => .error e
    | .ok (a, pool1) =>
      match genBridges cfg (start + 1) r pool1 with
      | .error e => .error e
      | .ok (rest, pool2) =>
        .ok ((start, (Bridge.new start cfg.pfx a, State.Pending)) :: rest, pool2)

/-- The instance loop of core::generate_one: for each instance index
create the namespace and veth with the next pool address, and consume one
qdisc-stream element if the stream still yields one. -/
def genVeths (cfg : Config) (start rem : Nat) (pool : Pool) (q : List QOpt) :
    Except String (EntryMap NamespaceVeth × EntryMap Qdisc × Pool × List QOpt) :=
  match rem with
  | 0 => .ok ([], [], pool, q)
  | r + 1 =>
    match next_addr cfg pool with
    | .error e => .error e
    | .ok (a, pool1) =>
      let veth := NamespaceVeth.new a (Namespace.new cfg.pfx start)
      match q with
      | [] =>
        match genVeths cfg (start + 1) r pool1 [] with
        | .error e => .error e
        | .ok (vrest, qrest, pool2, q2) =>
          .ok ((start, (veth, State.Pending)) :: vrest, qrest, pool2, q2)
      | qo :: qtail =>
        match genVeths cfg (start + 1) r pool1 qtail with
        | .error e => .error e
        | .ok (vrest, qrest, pool2, q2) =>
          .ok ((start, (veth, State.Pending)) :: vrest,
               (start, (Qdisc.mk qo.1 qo.2, State.Pending)) :: qrest, pool2, q2)

/-- Model of core::generate_one.  The bridge count is computed as in the
source by `n % per_bridge` and `n / per_bridge`; with per_bridge = 0 this
is a Rust panic (remainder by zero), recorded as `RRes.panicked`.  The
vxlan entry is added only when more than one host participates, reading
the carrier device of hosts[0]. -/
def generate_one (cfg : Config) (n : Nat) (hosts : List Host) (pool : Pool)
    (q : List QOpt) : RRes (Data × Pool × List QOpt) :=
  if cfg.per_bridge = 0 then
    .panicked "attempt to calculate the remainder with a divisor of zero"
  else
    let bridges :=
      match n % cfg.per_bridge with
      | 0 => n / cfg.per_bridge
      | _ + 1 => n / cfg.per_bridge + 1
    match genBridges cfg 0 bridges pool with
    | .error e => .err e
    | .ok (blist, pool1) =>
      let vx : EntryMap Vxlan :=
        if 1 < hosts.length then
          [(0, (⟨"vx-" ++ cfg.pfx, cfg.vxlan_id, cfg.vxlan_port,
                cfg.vxlan_multicast_group,
                match hosts with
                | h :: _ => h.vxlan_device
                | [] => ""⟩, State.Pending))]
        else []
      match genVeths cfg 0 n pool1 q with
      | .error e => .err e
      | .ok (vlist, qlist, pool2, q2) =>
        .ok (⟨vx, blist, vlist, qlist⟩, pool2, q2)

/-- Per-host instance counts of core::generate: host 0 receives
n / hosts + n % hosts, every other host n / hosts. -/
def hostSizes (n hcount : Nat) : List Nat :=
  (List.range hcount).map (fun i => if i = 0 then n / hcount + n % hcount else n / hcount)

/-- The fold of core::generate over the per-host counts: sequential
generate_one calls threading the pool and the qdisc stream, stopping at
the first error (Result collect semantics). -/
def genHosts (cfg : Config) (hosts : List Host) (sizes : List Nat) (pool : Pool)
    (q : List QOpt) : RRes (List Data × Pool × List QOpt) :=
  match sizes with
  | [] => .ok ([], pool, q)
  | m :: rest =>
    match generate_one cfg m hosts pool q with
    | .panicked e => .panicked e
    | .err e => .err e
    | .ok (d, pool1, q1) =>
      match genHosts cfg hosts rest pool1 q1 with
      | .panicked e => .panicked e
      | .err e => .err e
      | .ok (ds, pool2, q2) => .ok (d :: ds, pool2, q2)

/-- Model of core::generate: require a nonempty host list, then build one
plan per host with the chunk sizes of `hostSizes`. -/
def generate (cfg : Config) (n : Nat) (hosts : List Host) (pool : Pool)
    (q : List QOpt) : RRes (List Data × Pool × List QOpt) :=
  if hosts.length = 0 then .err "hosts must not be empty"
  else genHosts cfg hosts (hostSizes n hosts.length) pool q

/-- Bridge count computed by core::generate_one, in closed form. -/
def bridgeCount (pb n : Nat) : Nat :=
  n / pb + (if n % pb = 0 then 0 else 1)

/-- Closed form of the bridge map built by the planner: entries
(start + j, bridge) for j below rem, with consecutive pool addresses. -/
def bridgeSeg (cfg : Config) (start rem base : Nat) : EntryMap Bridge :=
  match rem with
  | 0 => []
  | r + 1 =>
    (start, (Bridge.new start cfg.pfx ⟨base, cfg.net.prefixLen⟩, State.Pending)) ::
      bridgeSeg cfg (start + 1) r (base + 1)

/-- Closed form of the veth map built by the planner. -/
def vethSeg (cfg : Config) (start rem base : Nat) : EntryMap NamespaceVeth :=
  match rem with
  | 0 => []
  | r + 1 =>
    (start, (NamespaceVeth.new ⟨base, cfg.net.prefixLen⟩ (Namespace.new cfg.pfx start),
             State.Pending)) ::
      vethSeg cfg (start + 1) r (base + 1)

/-- Closed form of the qdisc map built by the planner: one entry per
consumed qdisc-stream element. -/
def qdiscSeg (start : Nat) (q : List QOpt) : EntryMap Qdisc :=
  match q with
  | [] => []
  | qo :: rest => (start, (Qdisc.mk qo.1 qo.2, State.Pending)) :: qdiscSeg (start + 1) rest

/-- Closed form of the vxlan map built by the planner. -/
def vxSeg (cfg : Config) (hosts : List Host) : EntryMap Vxlan :=
  if 1 < hosts.length then
    [(0, (⟨"vx-" ++ cfg.pfx, cfg.vxlan_id, cfg.vxlan_port, cfg.vxlan_multicast_group,
          match hosts with
          | h :: _ => h.vxlan_device
          | [] => ""⟩, State.Pending))]
  else []

/-- The plan value produced by a successful generate_one call, in closed
form. -/
def planData (cfg : Config) (n : Nat) (hosts : List Host) (pool : Pool)
    (q : List QOpt) : Data :=
  ⟨vxSeg cfg hosts,
   bridgeSeg cfg 0 (bridgeCount cfg.per_bridge n) pool.next,
   vethSeg cfg 0 n (pool.next + bridgeCount cfg.per_bridge n),
   qdiscSeg 0 (q.take n)⟩

theorem genBridges_eq (cfg : Config) :
    ∀ rem start pool, genBridges cfg start rem pool =
      if rem ≤ pool.remaining
      then .ok (bridgeSeg cfg start rem pool.next, ⟨pool.next + rem, pool.remaining - rem⟩)
      else .error "run out of ip addresses" := by
  intro rem
  induction rem with
  | zero =>
    intro start pool
    simp [genBridges, bridgeSeg]
  | succ r ih =>
    intro start pool
    match hp : pool.remaining with
    | 0 =>
      simp [genBridges, next_addr, hp]
    | pr + 1 =>
      simp only [genBridges, next_addr, hp, ih]
      by_cases hle : r ≤ pr
      · simp only [if_pos hle, if_pos (by omega : r + 1 ≤ pr + 1)]
        simp [bridgeSeg]
        omega
      · simp [if_neg hle, if_neg (by omega : ¬ r + 1 ≤ pr + 1)]

theorem genVeths_eq (cfg : Config) :
    ∀ rem start pool q, genVeths cfg start rem pool q =
      if rem ≤ pool.remaining
      then .ok (vethSeg cfg start rem pool.next, qdiscSeg start (q.take rem),
                ⟨pool.next + rem, pool.remaining - rem⟩, q.drop rem)
      else .error "run out of ip addresses" := by
  intro rem
  induction rem with
  | zero =>
    intro start pool q
    simp [genVeths, vethSeg, qdiscSeg]
  | succ r ih =>
    intro start pool q
    match hp : pool.remaining with
    | 0 =>
      cases q <;> simp [genVeths, next_addr, hp]
    | pr + 1 =>
      by_cases hle : r ≤ pr
      · cases q with
        | nil =>
          simp only [genVeths, next_addr, hp, ih]
          simp only [if_pos hle, if_pos (by omega : r + 1 ≤ pr + 1)]
          simp [vethSeg, qdiscSeg]
          omega
        | cons qo qtail =>
          simp only [genVeths, next_addr, hp, ih]
          simp only [if_pos hle, if_pos (by omega : r + 1 ≤ pr + 1)]
          simp [vethSeg, qdiscSeg]
          omega
      · cases q with
        | nil =>
          simp only [genVeths, next_addr, hp, ih]
          simp [if_neg hle, if_neg (by omega : ¬ r + 1 ≤ pr + 1)]
        | cons qo qtail =>
          simp only [genVeths, next_addr, hp, ih]
          simp [if_neg hle, if_neg (by omega : ¬ r + 1 ≤ pr + 1)]

theorem bridgeCount_match (pb n : Nat) :
    (match n % pb with
     | 0 => n / pb
     | _ + 1 => n / pb + 1) = bridgeCount pb n := by
  unfold bridgeCount
  match h : n % pb with
  | 0 => simp [h]
  | k + 1 => simp [h]

/-- Closed form of a successful generate_one run: succeeds exactly when
the pool holds at least the bridge count plus the instance count, and
then returns the closed-form plan, the advanced pool, and the unconsumed
qdisc stream. -/
theorem generate_one_eq (cfg : Config) (n : Nat) (hosts : List Host) (pool : Pool)
    (q : List QOpt) (hpb : cfg.per_bridge ≠ 0) :
    generate_one cfg n hosts pool q =
      if bridgeCount cfg.per_bridge n + n ≤ pool.remaining
      then .ok (planData cfg n hosts pool q,
                ⟨pool.next + bridgeCount cfg.per_bridge n + n,
                 pool.remaining - (bridgeCount cfg.per_bridge n + n)⟩,
                q.drop n)
      else .err "run out of ip addresses" := by
  by_cases hb : bridgeCount cfg.per_bridge n ≤ pool.remaining
  · by_cases hv : n ≤ pool.remaining - bridgeCount cfg.per_bridge n
    · have hbn : bridgeCount cfg.per_bridge n + n ≤ pool.remaining := by omega
      have h3 : pool.remaining - bridgeCount cfg.per_bridge n - n =
          pool.remaining - (bridgeCount cfg.per_bridge n + n) := by omega
      simp [generate_one, hpb, bridgeCount_match, genBridges_eq, genVeths_eq,
            hb, hv, hbn, h3, planData, vxSeg, Nat.add_assoc]
    · have hbn : ¬ bridgeCount cfg.per_bridge n + n ≤ pool.remaining := by omega
      simp [generate_one, hpb, bridgeCount_match, genBridges_eq, genVeths_eq,
            hb, hv, hbn]
  · have hbn : ¬ bridgeCount cfg.per_bridge n + n ≤ pool.remaining := by omega
    simp [generate_one, hpb, bridgeCount_match, genBridges_eq, hb, hbn]

/-
Deployment executor (core::deploy).  Kernel verbs are recorded as events;
apply verbs are modelled as succeeding (their failure aborts deploy in the
source via the question-mark operator, which never fires in the modelled
success runs; the vxlan step's own "no bridges" error and the veth step's
"no bridge" lookup error are represented faithfully).
-/

/-- One kernel verb issued by the deployer or teardown. -/
inductive Event where
  | bridgeApply (b : Bridge)
  | bridgeConnect (pfx : String) (b1 b2 : Bridge)
  | vxlanApply (b : Bridge) (v : Vxlan)
  | namespaceApply (ns : Namespace)
  | vethApply (v : NamespaceVeth) (b : Bridge)
  | qdiscApply (v : NamespaceVeth) (qd : Qdisc)
  | namespaceRevert (ns : Namespace)
  | bridgeRevert (b : Bridge)
  | vxlanRevert (v : Vxlan)
  | vethRevert (v : NamespaceVeth)
  | bridgeDisconnect (pfx : String) (b1 b2 : Bridge)
deriving DecidableEq, Repr

/-- Whether an event is the connector-pair revert verb
(shell::bridge_disconnect). -/
def Event.isDisconnect : Event → Bool
  | Event.bridgeDisconnect _ _ _ => true
  | _ => false

/-- First loop of core::deploy: netlink::bridge_apply for every Pending
bridge, marking it Deployed. -/
def deployBridges (m : EntryMap Bridge) : EntryMap Bridge × List Event :=
  match m with
  | [] => ([], [])
  | (k, (b, s)) :: rest =>
    let (rest', evs) := deployBridges rest
    if s = State.Pending
    then ((k, (b, State.Deployed)) :: rest', Event.bridgeApply b :: evs)
    else ((k, (b, s)) :: rest', evs)

/-- Second loop of core::deploy: shell::bridge_connnect over the zip of
the bridge values with themselves shifted by one, i.e. over consecutive
pairs, run unconditionally on every deploy call. -/
def connectors (pfx : String) (bs : List Bridge) : List Event :=
  match bs with
  | b1 :: b2 :: rest => Event.bridgeConnect pfx b1 b2 :: connectors pfx (b2 :: rest)
  | _ => []

/-- Third loop of core::deploy: shell::vxlan_apply for every Pending
vxlan, using the first bridge of the map; errors with "no bridges" when
the bridge map is empty. -/
def deployVxlans (bridges : EntryMap Bridge) (m : EntryMap Vxlan) :
    Except String (EntryMap Vxlan × List Event) :=
  match m with
  | [] => .ok ([], [])
  | (k, (v, s)) :: rest =>
    if s = State.Pending then
      match bridges with
      | [] => .error "no bridges"
      | (_, (b, _)) :: _ =>
        match deployVxlans bridges rest with
        | .error e => .error e
        | .ok (rest', evs) =>
          .ok ((k, (v, State.Deployed)) :: rest', Event.vxlanApply b v :: evs)
    else
      match deployVxlans bridges rest with
      | .error e => .error e
      | .ok (rest', evs) => .ok ((k, (v, s)) :: rest', evs)

/-- Fourth loop of core::deploy: for every veth entry, when Pending create
its namespace, look up the owning bridge at key index / per_bridge (the
usize division panics when per_bridge is zero), apply the veth and mark it
Deployed; then, regardless of the veth state, apply the qdisc stored under
the same index when it is still Pending. -/
def deployVeths (cfg : Config) (bridges : EntryMap Bridge)
    (m : EntryMap NamespaceVeth) (qd : EntryMap Qdisc) :
    RRes (EntryMap NamespaceVeth × EntryMap Qdisc × List Event) :=
  match m with
  | [] => .ok ([], qd, [])
  | (index, (veth, s)) :: rest =>
    let step :=
      if s = State.Pending then
        if cfg.per_bridge = 0 then
          RRes.panicked "attempt to divide by zero"
        else
          match EntryMap.get bridges (index / cfg.per_bridge) with
          | none => RRes.err "no bridge"
          | some (b, _) =>
            RRes.ok ((index, (veth, State.Deployed)),
                     [Event.namespaceApply veth.ns, Event.vethApply veth b])
      else RRes.ok ((index, (veth, s)), [])
    match step with
    | .panicked e => .panicked e
    | .err e => .err e
    | .ok (entry, evs1) =>
      let (qd1, evs2) :=
        match EntryMap.get qd index with
        | some (qv, State.Pending) =>
          (EntryMap.setState qd index State.Deployed, [Event.qdiscApply veth qv])
        | _ => (qd, [])
      match deployVeths cfg bridges rest qd1 with
      | .panicked e => .panicked e
      | .err e => .err e
      | .ok (rest', qd2, evs3) => .ok (entry :: rest', qd2, evs1 ++ evs2 ++ evs3)

/-- Model of core::deploy: bridges, then bridge-to-bridge connectors over
consecutive pairs, then vxlan, then namespaces/veths/qdiscs, returning the
updated Data and the trace of kernel verbs in program order. -/
def deploy (cfg : Config) (d : Data) : RRes (Data × List Event) :=
  let (bridges1, evB) := deployBridges d.bridges
  let evC := connectors cfg.pfx (EntryMap.values bridges1)
  match deployVxlans bridges1 d.vxlan with
  | .error e => .err e
  | .ok (vx1, evV) =>
    match deployVeths cfg bridges1 d.veth d.qdisc with
    | .panicked e => .panicked e
    | .err e => .err e
    | .ok (veth1, qd1, evW) =>
      .ok (⟨vx1, bridges1, veth1, qd1⟩, evB ++ evC ++ evV ++ evW)

/-- The (veth, bridge) attachments recorded in a trace, in order. -/
def vethApplies (tr : List Event) : List (NamespaceVeth × Bridge) :=
  tr.filterMap (fun e =>
    match e with
    | Event.vethApply v b => some (v, b)
    | _ => none)

/-- The connector pairs recorded in a trace, as bridge-index pairs. -/
def connectorIdxPairs (tr : List Event) : List (Nat × Nat) :=
  tr.filterMap (fun e =>
    match e with
    | Event.bridgeConnect _ b1 b2 => some (b1.index, b2.index)
    | _ => none)

/-
Character and number utilities shared by the partition-grammar model and
the JSON wire-format model.
-/

/-- Decimal digit character for a value below ten. -/
def digitChar (d : Nat) : Char :=
  match d with
  | 0 => '0'
  | 1 => '1'
  | 2 => '2'
  | 3 => '3'
  | 4 => '4'
  | 5 => '5'
  | 6 => '6'
  | 7 => '7'
  | 8 => '8'
  | _ => '9'

/-- Value of a decimal digit character. -/
def digitVal (c : Char) : Option Nat :=
  if '0' ≤ c ∧ c ≤ '9' then some (c.toNat - 48) else none

/-- Little-endian decimal digits of a natural number. -/
def natDigitsRev (n : Nat) : List Char :=
  if h : n < 10 then [digitChar n]
  else digitChar (n % 10) :: natDigitsRev (n / 10)
termination_by n
decreasing_by
  exact Nat.div_lt_self (by omega) (by omega)

/-- Decimal rendering of a natural number (msd first). -/
def natToString (n : Nat) : String :=
  ⟨(natDigitsRev n).reverse⟩

/-- Accumulating decimal parser over msd-first digit characters. -/
def parseNatAux : List Char → Nat → Option Nat
  | [], acc => some acc
  | c :: rest, acc =>
    match digitVal c with
    | none => none
    | some d => parseNatAux rest (acc * 10 + d)

/-- Decimal parser over a nonempty msd-first digit-character list. -/
def parseNatChars (cs : List Char) : Option Nat :=
  if cs = [] then none else parseNatAux cs 0

/-- Splits a character list at every character satisfying the predicate,
keeping empty chunks (the model of str::split). -/
def splitPred (p : Char → Bool) : List Char → List (List Char)
  | [] => [[]]
  | c :: rest =>
    if p c then [] :: splitPred p rest
    else
      match splitPred p rest with
      | [] => [[c]]
      | q :: qs => (c :: q) :: qs

/-- Model of str::split_whitespace: whitespace-separated tokens with empty
chunks dropped. -/
def splitWhitespace (s : String) : List String :=
  ((splitPred (fun c => c.isWhitespace) s.data).filter (fun l => l ≠ [])).map
    (fun l => ⟨l⟩)

theorem digitVal_digitChar (d : Nat) (h : d < 10) : digitVal (digitChar d) = some d := by
  interval_cases d <;> decide

theorem natDigitsRev_ne_nil (n : Nat) : natDigitsRev n ≠ [] := by
  unfold natDigitsRev
  by_cases h : n < 10 <;> simp [h]

theorem mem_natDigitsRev (n : Nat) :
    ∀ c ∈ natDigitsRev n, ∃ d, d < 10 ∧ c = digitChar d := by
  induction n using Nat.strong_induction_on with
  | _ n ih =>
    intro c hc
    unfold natDigitsRev at hc
    by_cases h : n < 10
    · rw [dif_pos h] at hc
      simp at hc
      exact ⟨n, h, hc⟩
    · rw [dif_neg h] at hc
      rcases List.mem_cons.mp hc with h1 | h2
      · exact ⟨n % 10, Nat.mod_lt _ (by omega), h1⟩
      · exact ih (n / 10) (Nat.div_lt_self (by omega) (by omega)) c h2

theorem parseNatAux_append (c : Char) :
    ∀ (xs : List Char) (acc : Nat),
      parseNatAux (xs ++ [c]) acc =
        match parseNatAux xs acc with
        | none => none
        | some v =>
          match digitVal c with
          | none => none
          | some d => some (v * 10 + d) := by
  intro xs
  induction xs with
  | nil =>
    intro acc
    cases h : digitVal c <;> simp [parseNatAux, h]
  | cons x xs ih =>
    intro acc
    simp only [List.cons_append, parseNatAux]
    match h : digitVal x with
    | none => simp
    | some d => simp [ih]

theorem parseNatAux_digits (n : Nat) :
    ∀ acc, parseNatAux ((natDigitsRev n).reverse) acc =
      some (acc * 10 ^ (natDigitsRev n).length + n) := by
  induction n using Nat.strong_induction_on with
  | _ n ih =>
    intro acc
    by_cases h : n < 10
    · unfold natDigitsRev
      rw [dif_pos h]
      simp [parseNatAux, digitVal_digitChar n h]
    · unfold natDigitsRev
      rw [dif_neg h]
      simp only [List.reverse_cons, List.length_cons]
      rw [parseNatAux_append, ih (n / 10) (Nat.div_lt_self (by omega) (by omega)) acc,
          digitVal_digitChar (n % 10) (Nat.mod_lt _ (by omega))]
      have hp : 10 ^ ((natDigitsRev (n / 10)).length + 1) =
          10 ^ (natDigitsRev (n / 10)).length * 10 := pow_succ 10 _
      rw [hp, ← Nat.mul_assoc]
      simp only [Option.some.injEq]
      generalize acc * 10 ^ (natDigitsRev (n / 10)).length = A
      omega

theorem parseNatChars_natToString (n : Nat) :
    parseNatChars (natToString n).data = some n := by
  have hne : (natDigitsRev n).reverse ≠ [] := by
    intro h
    exact natDigitsRev_ne_nil n (List.reverse_eq_nil_iff.mp h)
  simp only [natToString, parseNatChars, hne, if_neg hne]
  rw [parseNatAux_digits n 0]
  simp

theorem digitVal_isSome_of_mem (n : Nat) (c : Char) (hc : c ∈ natDigitsRev n) :
    (digitVal c).isSome := by
  obtain ⟨d, hd, rfl⟩ := mem_natDigitsRev n c hc
  rw [digitVal_digitChar d hd]
  rfl

/-
Partition schedule grammar and background loop (partition.rs).
-/

/-- Model of humantime duration parse restricted to integral-seconds
tokens of the form digits followed by the letter s, in seconds; other
humantime forms are outside what the claims exercise. -/
def parseDuration (s : String) : Option Nat :=
  match s.data.reverse with
  | 's' :: restRev => parseNatChars restRev.reverse
  | _ => none

/-- Model of f64::from_str on plain decimal literals, with exact rational
values (the claims only exercise values on which binary rounding is
exact or on which the comparison outcome is rounding-independent). -/
def parseF64 (s : String) : Option Rat :=
  let dec : List Char → Option Rat := fun cs =>
    match splitPred (fun c => c = '.') cs with
    | [w] => (parseNatChars w).map (fun nn => (nn : Rat))
    | [w, f] =>
      match parseNatChars w, parseNatChars f with
      | some wn, some fn => some ((wn : Rat) + (fn : Rat) / (10 : Rat) ^ f.length)
      | _, _ => none
    | _ => none
  match s.data with
  | '-' :: rest => (dec rest).map (fun x => -x)
  | _ => dec s.data

/-- A parsed partition schedule, from partition::Partition; durations in
whole seconds. -/
structure Partition where
  buckets : List Rat
  interval : Nat
  duration : Nat
deriving DecidableEq, Repr

/-- The bucket-collection loop of Partition::parse: tokens before the
keyword interval are parsed as floats; returns the buckets and the tokens
after the keyword. -/
def parseBuckets : List String → Except String (List Rat × List String)
  | [] => .ok ([], [])
  | t :: rest =>
    if t = "interval" then .ok ([], rest)
    else
      match parseF64 t with
      | none => .error "can not parse into f64"
      | some v =>
        match parseBuckets rest with
        | .error e => .error e
        | .ok (bs, rem) => .ok (v :: bs, rem)

/-- Model of Partition::parse: buckets until the interval keyword, the
exact sum-is-one check, then the interval token, then the duration
keyword and token; trailing tokens are ignored. -/
def Partition.parse (s : String) : Except String Partition :=
  match parseBuckets (splitWhitespace s) with
  | .error e => .error e
  | .ok (buckets, rem) =>
    if buckets.sum ≠ 1 then .error "sum of buckets must be 1.0"
    else
      match rem with
      | [] => .error "missing interval"
      | it :: rem2 =>
        match parseDuration it with
        | none => .error "invalid interval"
        | some interval =>
          match rem2 with
          | "duration" :: rem3 =>
            match rem3 with
            | [] => .error "missing duration"
            | dt :: _ =>
              match parseDuration dt with
              | none => .error "invalid duration"
              | some dur => .ok ⟨buckets, interval, dur⟩
          | _ => .error "missing duration"

/-- Outcome of one crossbeam select of the background loop: either the
stop channel fired or the timeout elapsed. -/
inductive Sel where
  | stop
  | timeout
deriving DecidableEq, Repr

/-- Actions of the partition background thread. -/
inductive PAction where
  | apply
  | revert
deriving DecidableEq, Repr

/-- Model of the thread body spawned by Background::spawn: loop of select
on interval (stop breaks), Task::apply, select on duration (stop breaks),
Task::revert.  The schedule lists the successive select outcomes; an
exhausted schedule means the thread is still blocked in a select. -/
def backgroundLoop : List Sel → List PAction
  | [] => []
  | Sel.stop :: _ => []
  | Sel.timeout :: rest =>
    PAction.apply ::
      (match rest with
       | [] => []
       | Sel.stop :: _ => []
       | Sel.timeout :: rest2 => PAction.revert :: backgroundLoop rest2)

/-- Full apply/revert rounds. -/
def cycles : Nat → List PAction
  | 0 => []
  | n + 1 => PAction.apply :: PAction.revert :: cycles n

/-
Teardown (core::cleanup).  Each revert verb is best-effort: the oracle
says whether the kernel accepted it; a failure is logged and the loop
continues either way, so the trace does not depend on the oracle, only
the resulting states do (a successful revert resets the entry to
Pending; the namespace loop touches no state).
-/

/-- First loop of core::cleanup: netlink::namespace_revert for every veth
entry, regardless of its state. -/
def cleanupNs (m : EntryMap NamespaceVeth) : List Event :=
  m.map (fun e => Event.namespaceRevert e.2.1.ns)

/-- Second loop of core::cleanup: shell::bridge_revert on every bridge;
on success the state is reset to Pending. -/
def cleanupBridges (ok : Event → Bool) (m : EntryMap Bridge) :
    EntryMap Bridge × List Event :=
  match m with
  | [] => ([], [])
  | (k, (b, s)) :: rest =>
    let ev := Event.bridgeRevert b
    let (rest', evs) := cleanupBridges ok rest
    ((k, (b, if ok ev then State.Pending else s)) :: rest', ev :: evs)

/-- Third loop of core::cleanup: shell::vxlan_revert on every vxlan. -/
def cleanupVxlans (ok : Event → Bool) (m : EntryMap Vxlan) :
    EntryMap Vxlan × List Event :=
  match m with
  | [] => ([], [])
  | (k, (v, s)) :: rest =>
    let ev := Event.vxlanRevert v
    let (rest', evs) := cleanupVxlans ok rest
    ((k, (v, if ok ev then State.Pending else s)) :: rest', ev :: evs)

/-- Fourth loop of core::cleanup: netlink::veth_revert on every veth. -/
def cleanupVeths (ok : Event → Bool) (m : EntryMap NamespaceVeth) :
    EntryMap NamespaceVeth × List Event :=
  match m with
  | [] => ([], [])
  | (k, (v, s)) :: rest =>
    let ev := Event.vethRevert v
    let (rest', evs) := cleanupVeths ok rest
    ((k, (v, if ok ev then State.Pending else s)) :: rest', ev :: evs)

/-- Model of core::cleanup: namespaces of all veth entries, then bridges,
then vxlan, then veth host sides; the Rust function returns Ok(()) on
every input (all failures are logged and skipped), so the model is a
total function. -/
def cleanup (d : Data) (ok : Event → Bool) : Data × List Event :=
  let evN := cleanupNs d.veth
  let (bridges1, evB) := cleanupBridges ok d.bridges
  let (vx1, evV) := cleanupVxlans ok d.vxlan
  let (veth1, evW) := cleanupVeths ok d.veth
  (⟨vx1, bridges1, veth1, d.qdisc⟩, evN ++ evB ++ evV ++ evW)

/-
JSON wire format (serde derive on core::Data and supervisor::CommandConfig,
through serde_json).  The model works at the level of serde_json values:
a JSON document is the `Json` tree, rendering a tree to text is injective,
so equal trees give equal texts.  Derived struct serialisation lists the
fields in declaration order; BTreeMap<usize, V> becomes an object whose
keys are the decimal integers in ascending order; tuples become arrays;
unit enum variants become their name as a string; Option is null or the
value.  Addresses (ipnet::IpNet, std::net::Ipv4Addr display strings)
render through the abstract numeric address of the model, preserving
injectivity of the textual form.  The modelled deserialiser accepts the
canonical field order that the serialiser emits. -/

/-- A serde_json value.  Numbers are the unsigned integers (the plan
types carry usize, u32 and u16 only). -/
inductive Json where
  | null
  | bool (b : Bool)
  | num (n : Nat)
  | str (s : String)
  | arr (xs : List Json)
  | obj (fields : List (String × Json))
deriving Inhabited

/-- Textual form of an IpNet value: address, slash, prefix length. -/
def IpNet.render (a : IpNet) : String :=
  ⟨(natDigitsRev a.addr).reverse ++ '/' :: (natDigitsRev a.prefixLen).reverse⟩

/-- Parse the textual form of an IpNet value. -/
def IpNet.parseStr (s : String) : Option IpNet :=
  match splitPred (fun c => c = '/') s.data with
  | [w, p] =>
    match parseNatChars w, parseNatChars p with
    | some a, some pl => some ⟨a, pl⟩
    | _, _ => none
  | _ => none

def State.toJson : State → Json
  | State.Pending => .str "Pending"
  | State.Deployed => .str "Deployed"
  | State.Deleting => .str "Deleting"
  | State.Failed => .str "Failed"

def State.fromJson : Json → Option State
  | .str "Pending" => some State.Pending
  | .str "Deployed" => some State.Deployed
  | .str "Deleting" => some State.Deleting
  | .str "Failed" => some State.Failed
  | _ => none

def optStrToJson : Option String → Json
  | none => .null
  | some s => .str s

def optStrFromJson : Json → Option (Option String)
  | .null => some none
  | .str s => some (some s)
  | _ => none

def Vxlan.toJson (v : Vxlan) : Json :=
  .obj [("name", .str v.name), ("id", .num v.id), ("port", .num v.port),
        ("group", .str (natToString v.group)), ("device", .str v.device)]

def Vxlan.fromJson : Json → Option Vxlan
  | .obj [("name", .str name), ("id", .num id), ("port", .num port),
          ("group", .str group), ("device", .str device)] =>
    (parseNatChars group.data).map (fun g => ⟨name, id, port, g, device⟩)
  | _ => none

def Bridge.toJson (b : Bridge) : Json :=
  .obj [("index", .num b.index), ("name", .str b.name), ("addr", .str b.addr.render)]

def Bridge.fromJson : Json → Option Bridge
  | .obj [("index", .num index), ("name", .str name), ("addr", .str addr)] =>
    (IpNet.parseStr addr).map (fun a => ⟨index, name, a⟩)
  | _ => none

def Namespace.toJson (ns : Namespace) : Json :=
  .obj [("name", .str ns.name)]

def Namespace.fromJson : Json → Option Namespace
  | .obj [("name", .str name)] => some ⟨name⟩
  | _ => none

def NamespaceVeth.toJson (v : NamespaceVeth) : Json :=
  .obj [("addr", .str v.addr.render), ("namespace", v.ns.toJson)]

def NamespaceVeth.fromJson : Json → Option NamespaceVeth
  | .obj [("addr", .str addr), ("namespace", jns)] =>
    match IpNet.parseStr addr, Namespace.fromJson jns with
    | some a, some ns => some ⟨a, ns⟩
    | _, _ => none
  | _ => none

def Qdisc.toJson (q : Qdisc) : Json :=
  .obj [("tbf", optStrToJson q.tbf), ("netem", optStrToJson q.netem)]

def Qdisc.fromJson : Json → Option Qdisc
  | .obj [("tbf", jt), ("netem", jn)] =>
    match optStrFromJson jt, optStrFromJson jn with
    | some t, some n => some ⟨t, n⟩
    | _, _ => none
  | _ => none

/-- Serialisation of one BTreeMap<usize, (V, State)>: decimal keys in map
order, each value the two-element array of the value and the state. -/
def mapToJson (f : α → Json) (m : EntryMap α) : Json :=
  .obj (m.map (fun e => (natToString e.1, Json.arr [f e.2.1, e.2.2.toJson])))

def mapEntriesFromJson (f : Json → Option α) :
    List (String × Json) → Option (EntryMap α)
  | [] => some []
  | (k, j) :: rest =>
    match parseNatChars k.data, j with
    | some key, Json.arr [ja, js] =>
      match f ja, State.fromJson js, mapEntriesFromJson f rest with
      | some a, some s, some rest' => some ((key, (a, s)) :: rest')
      | _, _, _ => none
    | _, _ => none

def mapFromJson (f : Json → Option α) : Json → Option (EntryMap α)
  | .obj fields => mapEntriesFromJson f fields
  | _ => none

def Data.toJson (d : Data) : Json :=
  .obj [("vxlan", mapToJson Vxlan.toJson d.vxlan),
        ("bridges", mapToJson Bridge.toJson d.bridges),
        ("veth", mapToJson NamespaceVeth.toJson d.veth),
        ("qdisc", mapToJson Qdisc.toJson d.qdisc)]

def Data.fromJson : Json → Option Data
  | .obj [("vxlan", jv), ("bridges", jb), ("veth", jw), ("qdisc", jq)] =>
    match mapFromJson Vxlan.fromJson jv, mapFromJson Bridge.fromJson jb,
          mapFromJson NamespaceVeth.fromJson jw, mapFromJson Qdisc.fromJson jq with
    | some vx, some br, some ve, some qd => some ⟨vx, br, ve, qd⟩
    | _, _, _, _ => none
  | _ => none

/-- Model of supervisor::CommandConfig; the PathBuf working directory is
its textual form, the environment override map an association list in
ascending key order. -/
structure CommandConfig where
  name : String
  command : String
  work_dir : String
  os_env : Option (List (String × String))
  redirect : Bool
deriving DecidableEq, Repr, Inhabited

def envToJson : List (String × String) → Json :=
  fun l => .obj (l.map (fun e => (e.1, Json.str e.2)))

def envEntriesFromJson : List (String × Json) → Option (List (String × String))
  | [] => some []
  | (k, .str v) :: rest => (envEntriesFromJson rest).map (fun r => (k, v) :: r)
  | _ => none

def optEnvToJson : Option (List (String × String)) → Json
  | none => .null
  | some l => envToJson l

def optEnvFromJson : Json → Option (Option (List (String × String)))
  | .null => some none
  | .obj fields => (envEntriesFromJson fields).map (fun l => some l)
  | _ => none

def CommandConfig.toJson (c : CommandConfig) : Json :=
  .obj [("name", .str c.name), ("command", .str c.command),
        ("work_dir", .str c.work_dir), ("os_env", optEnvToJson c.os_env),
        ("redirect", .bool c.redirect)]

def CommandConfig.fromJson : Json → Option CommandConfig
  | .obj [("name", .str name), ("command", .str command), ("work_dir", .str wd),
          ("os_env", je), ("redirect", .bool r)] =>
    (optEnvFromJson je).map (fun env => ⟨name, command, wd, env, r⟩)
  | _ => none

/-- The command map shipped to a peer host: BTreeMap<usize, CommandConfig>. -/
abbrev CmdMap := List (Nat × CommandConfig)

def cmdMapToJson (m : CmdMap) : Json :=
  .obj (m.map (fun e => (natToString e.1, CommandConfig.toJson e.2)))

def cmdMapEntriesFromJson : List (String × Json) → Option CmdMap
  | [] => some []
  | (k, j) :: rest =>
    match parseNatChars k.data, CommandConfig.fromJson j, cmdMapEntriesFromJson rest with
    | some key, some c, some rest' => some ((key, c) :: rest')
    | _, _, _ => none

def cmdMapFromJson : Json → Option CmdMap
  | .obj fields => cmdMapEntriesFromJson fields
  | _ => none

theorem splitPred_nosep (p : Char → Bool) :
    ∀ l : List Char, (∀ c ∈ l, p c = false) → splitPred p l = [l] := by
  intro l
  induction l with
  | nil => intro _; rfl
  | cons c rest ih =>
    intro h
    have hc : p c = false := h c (List.mem_cons_self c rest)
    have hrest := ih (fun c' hc' => h c' (List.mem_cons_of_mem c hc'))
    simp [splitPred, hc, hrest]

theorem splitPred_append (p : Char → Bool) (c : Char) (ys : List Char)
    (hc : p c = true) :
    ∀ xs : List Char, (∀ c' ∈ xs, p c' = false) →
      splitPred p (xs ++ c :: ys) = xs :: splitPred p ys := by
  intro xs
  induction xs with
  | nil => intro _; simp [splitPred, hc]
  | cons x xs ih =>
    intro h
    have hx : p x = false := h x (List.mem_cons_self x xs)
    have hrest := ih (fun c' hc' => h c' (List.mem_cons_of_mem x hc'))
    simp only [List.cons_append, splitPred, hx, Bool.false_eq_true, if_false]
    have h2 : splitPred p (xs.append (c :: ys)) = xs :: splitPred p ys := hrest
    rw [h2]

theorem parseNatChars_digitsRev (n : Nat) :
    parseNatChars ((natDigitsRev n).reverse) = some n := by
  have hne : (natDigitsRev n).reverse ≠ [] := by
    intro h
    exact natDigitsRev_ne_nil n (List.reverse_eq_nil_iff.mp h)
  simp only [parseNatChars, hne, if_neg hne]
  rw [parseNatAux_digits n 0]
  simp

theorem digit_ne_slash (c : Char) (h : (digitVal c).isSome) : c ≠ '/' := by
  intro he
  subst he
  revert h
  decide

theorem IpNet.parseStr_render (a : IpNet) : IpNet.parseStr a.render = some a := by
  unfold IpNet.render IpNet.parseStr
  have hf : ∀ n : Nat, ∀ c' ∈ (natDigitsRev n).reverse,
      (fun c => (decide (c = '/'))) c' = false := by
    intro n c' hc'
    have hmem : c' ∈ natDigitsRev n := List.mem_reverse.mp hc'
    exact decide_eq_false (digit_ne_slash c' (digitVal_isSome_of_mem n c' hmem))
  have hsplit := splitPred_append (fun c => (decide (c = '/'))) '/'
    ((natDigitsRev a.prefixLen).reverse) (by simp) ((natDigitsRev a.addr).reverse)
    (hf a.addr)
  have hone := splitPred_nosep (fun c => (decide (c = '/')))
    ((natDigitsRev a.prefixLen).reverse) (hf a.prefixLen)
  show (match splitPred (fun c => (decide (c = '/')))
      ((natDigitsRev a.addr).reverse ++ '/' :: (natDigitsRev a.prefixLen).reverse) with
    | [w, p] =>
      match parseNatChars w, parseNatChars p with
      | some av, some pl => some (⟨av, pl⟩ : IpNet)
      | _, _ => none
    | _ => none) = some a
  rw [hsplit, hone]
  show (match parseNatChars ((natDigitsRev a.addr).reverse),
      parseNatChars ((natDigitsRev a.prefixLen).reverse) with
    | some av, some pl => some (⟨av, pl⟩ : IpNet)
    | _, _ => none) = some a
  rw [parseNatChars_digitsRev, parseNatChars_digitsRev]

theorem stateFromJson_toJson (s : State) : State.fromJson s.toJson = some s := by
  cases s <;> rfl

theorem optStrFromJson_toJson (o : Option String) :
    optStrFromJson (optStrToJson o) = some o := by
  cases o <;> rfl

theorem vxlanFromJson_toJson (v : Vxlan) : Vxlan.fromJson v.toJson = some v := by
  obtain ⟨name, id, port, group, device⟩ := v
  simp [Vxlan.toJson, Vxlan.fromJson, parseNatChars_natToString]

theorem bridgeFromJson_toJson (b : Bridge) : Bridge.fromJson b.toJson = some b := by
  obtain ⟨index, name, addr⟩ := b
  simp [Bridge.toJson, Bridge.fromJson, IpNet.parseStr_render]

theorem namespaceFromJson_toJson (ns : Namespace) :
    Namespace.fromJson ns.toJson = some ns := by
  obtain ⟨name⟩ := ns
  rfl

theorem namespaceVethFromJson_toJson (v : NamespaceVeth) :
    NamespaceVeth.fromJson v.toJson = some v := by
  obtain ⟨addr, ns⟩ := v
  simp [NamespaceVeth.toJson, NamespaceVeth.fromJson, IpNet.parseStr_render,
        namespaceFromJson_toJson]

theorem qdiscFromJson_toJson (q : Qdisc) : Qdisc.fromJson q.toJson = some q := by
  obtain ⟨t, n⟩ := q
  simp [Qdisc.toJson, Qdisc.fromJson, optStrFromJson_toJson]

theorem mapFromJson_mapToJson (f : α → Json) (g : Json → Option α)
    (hf : ∀ a, g (f a) = some a) (m : EntryMap α) :
    mapFromJson g (mapToJson f m) = some m := by
  show mapEntriesFromJson g (m.map _) = some m
  induction m with
  | nil => rfl
  | cons e rest ih =>
    obtain ⟨k, a, s⟩ := e
    simp only [List.map_cons, mapEntriesFromJson, parseNatChars_natToString, hf,
               stateFromJson_toJson, ih]

theorem dataFromJson_toJson (d : Data) : Data.fromJson d.toJson = some d := by
  obtain ⟨vx, br, ve, qd⟩ := d
  have h1 := mapFromJson_mapToJson Vxlan.toJson Vxlan.fromJson vxlanFromJson_toJson vx
  have h2 := mapFromJson_mapToJson Bridge.toJson Bridge.fromJson bridgeFromJson_toJson br
  have h3 := mapFromJson_mapToJson NamespaceVeth.toJson NamespaceVeth.fromJson
    namespaceVethFromJson_toJson ve
  have h4 := mapFromJson_mapToJson Qdisc.toJson Qdisc.fromJson qdiscFromJson_toJson qd
  simp [Data.toJson, Data.fromJson, h1, h2, h3, h4]

theorem envEntriesFromJson_roundtrip (l : List (String × String)) :
    envEntriesFromJson (l.map (fun e => (e.1, Json.str e.2))) = some l := by
  induction l with
  | nil => rfl
  | cons e rest ih =>
    obtain ⟨k, v⟩ := e
    simp only [List.map_cons, envEntriesFromJson, ih]
    rfl

theorem optEnvFromJson_toJson (o : Option (List (String × String))) :
    optEnvFromJson (optEnvToJson o) = some o := by
  cases o with
  | none => rfl
  | some l =>
    show optEnvFromJson (envToJson l) = some (some l)
    simp only [envToJson, optEnvFromJson, envEntriesFromJson_roundtrip]
    rfl

theorem commandConfigFromJson_toJson (c : CommandConfig) :
    CommandConfig.fromJson c.toJson = some c := by
  obtain ⟨name, command, wd, env, r⟩ := c
  show (optEnvFromJson (optEnvToJson env)).map _ = _
  rw [optEnvFromJson_toJson]
  rfl

theorem cmdMapFromJson_cmdMapToJson (m : CmdMap) :
    cmdMapFromJson (cmdMapToJson m) = some m := by
  show cmdMapEntriesFromJson (m.map _) = some m
  induction m with
  | nil => rfl
  | cons e rest ih =>
    obtain ⟨k, c⟩ := e
    simp only [List.map_cons, cmdMapEntriesFromJson, parseNatChars_natToString,
               commandConfigFromJson_toJson, ih]

/-- C9: JSON-serialising then deserialising a per-host plan (core::Data)
or a command map (BTreeMap of supervisor::CommandConfig) returns a value
equal to the original, and re-serialising that value produces the same
JSON document (so the same JSON text, text being a function of the
serde_json value; integer-keyed maps render their keys in ascending map
order). -/
theorem json_roundtrip :
    (∀ d : Data, Data.fromJson (Data.toJson d) = some d) ∧
    (∀ d : Data, (Data.fromJson (Data.toJson d)).map Data.toJson = some (Data.toJson d)) ∧
    (∀ m : CmdMap, cmdMapFromJson (cmdMapToJson m) = some m) ∧
    (∀ m : CmdMap, (cmdMapFromJson (cmdMapToJson m)).map cmdMapToJson =
      some (cmdMapToJson m)) := by
  refine ⟨dataFromJson_toJson, fun d => ?_, cmdMapFromJson_cmdMapToJson, fun m => ?_⟩
  · rw [dataFromJson_toJson d]
    rfl
  · rw [cmdMapFromJson_cmdMapToJson m]
    rfl

/-
Concrete inputs used by counterexamples and witnesses.
-/

/-- Projection out of a known-Ok result. -/
def RRes.getOk [Inhabited α] : RRes α → α
  | .ok a => a
  | _ => default

/-- A configuration with per_bridge zero. -/
def cfgPB0 : Config := ⟨"p", ⟨0, 16⟩, 0, 100, 4789, 900⟩

/-- A configuration with per_bridge above the kernel port limit. -/
def cfgPB1001 : Config := ⟨"p", ⟨0, 16⟩, 1001, 100, 4789, 900⟩

/-- A single host. -/
def host0 : Host := ⟨"h", "eth0"⟩

/-- A pool with one hundred addresses starting at position zero. -/
def poolC : Pool := ⟨0, 100⟩

/-
C4 — per_bridge validation.
-/

/-- C4 amended: the planner performs no range validation of per_bridge at
all.  With per_bridge = 0 the bridge-count computation n % per_bridge is
a Rust division-by-zero panic, not a returned validation error; with any
nonzero per_bridge — including values above 1000 — the planner never
panics and never reports a range error (it returns the plan, or the
address-exhaustion error). -/
theorem generate_one_no_validation (cfg : Config) (n : Nat) (hosts : List Host)
    (pool : Pool) (q : List QOpt) :
    (cfg.per_bridge = 0 →
      generate_one cfg n hosts pool q =
        .panicked "attempt to calculate the remainder with a divisor of zero") ∧
    (cfg.per_bridge ≠ 0 →
      ∀ msg, generate_one cfg n hosts pool q ≠ .panicked msg) := by
  constructor
  · intro h0
    unfold generate_one
    rw [if_pos h0]
  · intro hpb msg
    rw [generate_one_eq cfg n hosts pool q hpb]
    by_cases hle : bridgeCount cfg.per_bridge n + n ≤ pool.remaining
    · rw [if_pos hle]
      intro h
      cases h
    · rw [if_neg hle]
      intro h
      cases h

/-- C4 witness: the amended statement evaluated at concrete inputs. -/
theorem generate_one_no_validation_witness :
    generate_one cfgPB0 1 [host0] poolC [] =
      .panicked "attempt to calculate the remainder with a divisor of zero" ∧
    ∀ msg, generate_one cfgPB1001 1 [host0] poolC [] ≠ .panicked msg :=
  ⟨(generate_one_no_validation cfgPB0 1 [host0] poolC []).1 rfl,
   (generate_one_no_validation cfgPB1001 1 [host0] poolC []).2 (by decide)⟩

/-- C4 counterexample: with per_bridge = 0 the planner panics instead of
returning a validation error, and with per_bridge = 1001 (outside the
claimed (0, 1000] range) the planner succeeds instead of returning a
validation error. -/
theorem per_bridge_validation_cex :
    generate_one cfgPB0 1 [host0] poolC [] =
      .panicked "attempt to calculate the remainder with a divisor of zero" ∧
    generate_one cfgPB1001 1 [host0] poolC [] =
      .ok (planData cfgPB1001 1 [host0] poolC [], ⟨2, 98⟩, []) := by
  constructor
  · rfl
  · rw [generate_one_eq cfgPB1001 1 [host0] poolC [] (by decide)]
    rfl

/-
C6 — partition grammar.
-/

/-- C6 amended: the three concrete parses of the claim behave as stated,
and every schedule the parser accepts has bucket sum exactly one; but the
parser checks no positivity of interval or duration (see the
counterexample: zero durations are accepted). -/
theorem partition_parse_amended :
    Partition.parse "0.5 0.5 interval 5s duration 10s" =
      .ok ⟨[1/2, 1/2], 5, 10⟩ ∧
    Partition.parse "0.4 0.4 interval 5s duration 10s" =
      .error "sum of buckets must be 1.0" ∧
    Partition.parse "0.5 0.5 interval 5s" = .error "missing duration" ∧
    (∀ s p, Partition.parse s = .ok p → p.buckets.sum = 1) := by
  refine ⟨?_, ?_, ?_, ?_⟩
  · have hsplit : splitWhitespace "0.5 0.5 interval 5s duration 10s" =
        ["0.5", "0.5", "interval", "5s", "duration", "10s"] := by decide
    have hf : parseF64 "0.5" =
        some (((0 : Nat) : Rat) + ((5 : Nat) : Rat) / (10 : Rat) ^ 1) := rfl
    have hd5 : parseDuration "5s" = some 5 := by decide
    have hd10 : parseDuration "10s" = some 10 := by decide
    unfold Partition.parse
    rw [hsplit]
    simp only [parseBuckets, hf]
    norm_num
    simp +decide [hd5, hd10]
    norm_num
  · have hsplit : splitWhitespace "0.4 0.4 interval 5s duration 10s" =
        ["0.4", "0.4", "interval", "5s", "duration", "10s"] := by decide
    have hf : parseF64 "0.4" =
        some (((0 : Nat) : Rat) + ((4 : Nat) : Rat) / (10 : Rat) ^ 1) := rfl
    unfold Partition.parse
    rw [hsplit]
    simp only [parseBuckets, hf]
    norm_num
    simp +decide
    intro hcon
    norm_num at hcon
  · have hsplit : splitWhitespace "0.5 0.5 interval 5s" =
        ["0.5", "0.5", "interval", "5s"] := by decide
    have hf : parseF64 "0.5" =
        some (((0 : Nat) : Rat) + ((5 : Nat) : Rat) / (10 : Rat) ^ 1) := rfl
    have hd5 : parseDuration "5s" = some 5 := by decide
    unfold Partition.parse
    rw [hsplit]
    simp only [parseBuckets, hf]
    norm_num
    simp +decide [hd5]
    norm_num
  · intro s p h
    unfold Partition.parse at h
    repeat' split at h
    all_goals try cases h
    all_goals simp_all

/-- C6 witness: the universal bucket-sum clause of the amended statement
applied at the first concrete parse. -/
theorem partition_parse_amended_witness :
    ([1/2, 1/2] : List Rat).sum = 1 :=
  partition_parse_amended.2.2.2 "0.5 0.5 interval 5s duration 10s"
    ⟨[1/2, 1/2], 5, 10⟩ partition_parse_amended.1

/-- C6 counterexample: the parser accepts a schedule whose interval and
duration are both zero, refuting the claim that every accepted schedule
has positive interval and duration. -/
theorem partition_parse_positive_cex :
    Partition.parse "1 interval 0s duration 0s" = .ok ⟨[1], 0, 0⟩ ∧
    ¬ (0 < (0 : Nat)) := by
  constructor
  · have hsplit : splitWhitespace "1 interval 0s duration 0s" =
        ["1", "interval", "0s", "duration", "0s"] := by decide
    have hf : parseF64 "1" = some (((1 : Nat) : Rat)) := rfl
    have hd : parseDuration "0s" = some 0 := by decide
    unfold Partition.parse
    rw [hsplit]
    simp only [parseBuckets, hf]
    norm_num
    simp +decide [hd]
  · omega

/-
C7 — partition background thread stop behaviour.
-/

/-- C7 amended: a stop signal interrupts either sleep immediately and the
thread exits at once; after 2n timeouts the thread has run n full
apply/revert rounds, and a stop arriving during the ACTIVE sleep (after
2n+1 timeouts) makes the thread exit right after the nth apply WITHOUT
running the revert of the installed DROP rules. -/
theorem background_loop_traces :
    ∀ (n : Nat) (rest : List Sel),
      backgroundLoop (List.replicate (2 * n) Sel.timeout ++ Sel.stop :: rest) =
        cycles n ∧
      backgroundLoop (List.replicate (2 * n + 1) Sel.timeout ++ Sel.stop :: rest) =
        cycles n ++ [PAction.apply] := by
  intro n
  induction n with
  | zero =>
    intro rest
    constructor
    · rfl
    · rfl
  | succ k ih =>
    intro rest
    have h2 : 2 * (k + 1) = 2 * k + 1 + 1 := by ring
    constructor
    · rw [h2, List.replicate_succ, List.replicate_succ]
      show backgroundLoop (Sel.timeout :: Sel.timeout ::
        (List.replicate (2 * k) Sel.timeout ++ Sel.stop :: rest)) = cycles (k + 1)
      match hk : List.replicate (2 * k) Sel.timeout ++ Sel.stop :: rest with
      | [] => exact absurd hk (by simp)
      | x :: xs =>
        show PAction.apply :: PAction.revert :: backgroundLoop (x :: xs) = cycles (k + 1)
        rw [← hk, (ih rest).1]
        rfl
    · rw [h2, List.replicate_succ, List.replicate_succ, List.replicate_succ]
      show backgroundLoop (Sel.timeout :: Sel.timeout ::
        (List.replicate (2 * k + 1) Sel.timeout ++ Sel.stop :: rest)) =
        cycles (k + 1) ++ [PAction.apply]
      match hk : List.replicate (2 * k + 1) Sel.timeout ++ Sel.stop :: rest with
      | [] => exact absurd hk (by simp)
      | x :: xs =>
        show PAction.apply :: PAction.revert :: backgroundLoop (x :: xs) =
          cycles (k + 1) ++ [PAction.apply]
        rw [← hk, (ih rest).2]
        rfl

/-- C7 counterexample: a stop received while the thread sleeps in the
ACTIVE state (DROP rules installed) ends the thread with trace
[apply] — the REVERT of the remembered rules does not run before exit. -/
theorem background_stop_no_revert_cex :
    backgroundLoop [Sel.timeout, Sel.stop] = [PAction.apply] ∧
    PAction.revert ∉ backgroundLoop [Sel.timeout, Sel.stop] := by
  constructor
  · rfl
  · decide

/-
C8 — teardown order.
-/

theorem cleanupBridges_eq (ok : Event → Bool) :
    ∀ m : EntryMap Bridge, cleanupBridges ok m =
      (m.map (fun e => (e.1, (e.2.1,
         if ok (Event.bridgeRevert e.2.1) then State.Pending else e.2.2))),
       m.map (fun e => Event.bridgeRevert e.2.1)) := by
  intro m
  induction m with
  | nil => rfl
  | cons e rest ih =>
    obtain ⟨k, b, s⟩ := e
    simp [cleanupBridges, ih]

theorem cleanupVxlans_eq (ok : Event → Bool) :
    ∀ m : EntryMap Vxlan, cleanupVxlans ok m =
      (m.map (fun e => (e.1, (e.2.1,
         if ok (Event.vxlanRevert e.2.1) then State.Pending else e.2.2))),
       m.map (fun e => Event.vxlanRevert e.2.1)) := by
  intro m
  induction m with
  | nil => rfl
  | cons e rest ih =>
    obtain ⟨k, v, s⟩ := e
    simp [cleanupVxlans, ih]

theorem cleanupVeths_eq (ok : Event → Bool) :
    ∀ m : EntryMap NamespaceVeth, cleanupVeths ok m =
      (m.map (fun e => (e.1, (e.2.1,
         if ok (Event.vethRevert e.2.1) then State.Pending else e.2.2))),
       m.map (fun e => Event.vethRevert e.2.1)) := by
  intro m
  induction m with
  | nil => rfl
  | cons e rest ih =>
    obtain ⟨k, v, s⟩ := e
    simp [cleanupVeths, ih]

/-- C8 amended: cleanup is total (the source logs every failed revert and
returns Ok), and it proceeds in the order namespaces of all veth entries,
then every bridge, then the vxlan devices, then the veth host sides; it
never issues a connector-pair revert; the verb trace is independent of
which reverts fail (failures never stop the remaining steps); exactly the
entries whose revert succeeded are reset to Pending, and the qdisc map is
untouched. -/
theorem cleanup_order_amended (d : Data) (ok ok2 : Event → Bool) :
    (cleanup d ok).2 =
      d.veth.map (fun e => Event.namespaceRevert e.2.1.ns) ++
      d.bridges.map (fun e => Event.bridgeRevert e.2.1) ++
      d.vxlan.map (fun e => Event.vxlanRevert e.2.1) ++
      d.veth.map (fun e => Event.vethRevert e.2.1) ∧
    (∀ e ∈ (cleanup d ok).2, e.isDisconnect = false) ∧
    (cleanup d ok).2 = (cleanup d ok2).2 ∧
    (cleanup d ok).1.bridges = d.bridges.map (fun e => (e.1, (e.2.1,
       if ok (Event.bridgeRevert e.2.1) then State.Pending else e.2.2))) ∧
    (cleanup d ok).1.vxlan = d.vxlan.map (fun e => (e.1, (e.2.1,
       if ok (Event.vxlanRevert e.2.1) then State.Pending else e.2.2))) ∧
    (cleanup d ok).1.veth = d.veth.map (fun e => (e.1, (e.2.1,
       if ok (Event.vethRevert e.2.1) then State.Pending else e.2.2))) ∧
    (cleanup d ok).1.qdisc = d.qdisc := by
  have htr : (cleanup d ok).2 =
      d.veth.map (fun e => Event.namespaceRevert e.2.1.ns) ++
      d.bridges.map (fun e => Event.bridgeRevert e.2.1) ++
      d.vxlan.map (fun e => Event.vxlanRevert e.2.1) ++
      d.veth.map (fun e => Event.vethRevert e.2.1) := by
    simp [cleanup, cleanupNs, cleanupBridges_eq, cleanupVxlans_eq, cleanupVeths_eq]
  refine ⟨htr, ?_, ?_, ?_, ?_, ?_, ?_⟩
  · intro e he
    rw [htr] at he
    simp only [List.mem_append, List.mem_map] at he
    rcases he with ((⟨x, _, hx⟩ | ⟨x, _, hx⟩) | ⟨x, _, hx⟩) | ⟨x, _, hx⟩ <;>
      rw [← hx] <;> rfl
  · rw [htr]
    simp [cleanup, cleanupNs, cleanupBridges_eq, cleanupVxlans_eq, cleanupVeths_eq]
  · simp [cleanup, cleanupBridges_eq, cleanupVxlans_eq, cleanupVeths_eq]
  · simp [cleanup, cleanupBridges_eq, cleanupVxlans_eq, cleanupVeths_eq]
  · simp [cleanup, cleanupBridges_eq, cleanupVxlans_eq, cleanupVeths_eq]
  · simp [cleanup, cleanupBridges_eq, cleanupVxlans_eq, cleanupVeths_eq]

/-- Configuration for the teardown counterexample. -/
def cfg8 : Config := ⟨"t8", ⟨0, 16⟩, 1, 100, 4789, 900⟩

/-- Two hosts so that the plan carries a vxlan. -/
def hosts8 : List Host := [⟨"h0", "eth0"⟩, ⟨"h1", "eth1"⟩]

/-- A two-instance, two-bridge plan with a vxlan. -/
def d8 : Data := ((generate_one cfg8 2 hosts8 ⟨0, 100⟩ []).getOk).1

/-- C8 counterexample: on a plan with two bridges, two veths and a vxlan,
the teardown trace deletes the namespaces FIRST and the veth host sides
LAST, with the bridges deleted before the vxlan and before the veths, and
issues no connector-pair revert at all — refuting the claimed strict
reverse order (veths first, then namespaces, then connectors, then vxlan,
then bridges). -/
theorem cleanup_order_cex :
    (cleanup d8 (fun _ => true)).2 =
      [Event.namespaceRevert (Namespace.new "t8" 0),
       Event.namespaceRevert (Namespace.new "t8" 1),
       Event.bridgeRevert (Bridge.new 0 "t8" ⟨0, 16⟩),
       Event.bridgeRevert (Bridge.new 1 "t8" ⟨1, 16⟩),
       Event.vxlanRevert ⟨"vx-t8", 100, 4789, 900, "eth0"⟩,
       Event.vethRevert (NamespaceVeth.new ⟨2, 16⟩ (Namespace.new "t8" 0)),
       Event.vethRevert (NamespaceVeth.new ⟨3, 16⟩ (Namespace.new "t8" 1))] ∧
    ((cleanup d8 (fun _ => true)).2).head? ≠
      some (Event.vethRevert (NamespaceVeth.new ⟨2, 16⟩ (Namespace.new "t8" 0))) ∧
    ((cleanup d8 (fun _ => true)).2).all (fun e => !e.isDisconnect) = true := by
  refine ⟨by decide, by decide, by decide⟩

/-
Planner consequences: keys, sizes and addresses of generated plans
(C1, C2, C5 groundwork).
-/

/-- Numeric positions of all addresses held by a plan, bridges first then
veths, in map order — exactly the order they were drawn from the pool. -/
def Data.addrNums (d : Data) : List Nat :=
  d.bridges.map (fun e => e.2.1.addr.addr) ++ d.veth.map (fun e => e.2.1.addr.addr)

/-- All addresses held by a plan with their prefix lengths. -/
def Data.addrIpNets (d : Data) : List IpNet :=
  d.bridges.map (fun e => e.2.1.addr) ++ d.veth.map (fun e => e.2.1.addr)

/-- Union of the instance-index key sets of the veth maps across plans. -/
def plansKeyUnion (plans : List Data) : Finset Nat :=
  plans.foldr (fun d acc => (EntryMap.keys d.veth).toFinset ∪ acc) ∅

theorem toFinset_listRange (m : Nat) : (List.range m).toFinset = Finset.range m := by
  ext x
  simp

theorem bridgeSeg_keys (cfg : Config) :
    ∀ rem start base, EntryMap.keys (bridgeSeg cfg start rem base) = List.range' start rem := by
  intro rem
  induction rem with
  | zero => intro start base; rfl
  | succ r ih =>
    intro start base
    rw [List.range'_succ]
    simp [bridgeSeg, EntryMap.keys, List.range'_succ] at ih ⊢
    exact ih (start + 1) (base + 1)

theorem vethSeg_keys (cfg : Config) :
    ∀ rem start base, EntryMap.keys (vethSeg cfg start rem base) = List.range' start rem := by
  intro rem
  induction rem with
  | zero => intro start base; rfl
  | succ r ih =>
    intro start base
    rw [List.range'_succ]
    simp [vethSeg, EntryMap.keys, List.range'_succ] at ih ⊢
    exact ih (start + 1) (base + 1)

theorem bridgeSeg_length (cfg : Config) :
    ∀ rem start base, (bridgeSeg cfg start rem base).length = rem := by
  intro rem
  induction rem with
  | zero => intro start base; rfl
  | succ r ih =>
    intro start base
    simp [bridgeSeg, ih (start + 1) (base + 1)]

theorem vethSeg_length (cfg : Config) :
    ∀ rem start base, (vethSeg cfg start rem base).length = rem := by
  intro rem
  induction rem with
  | zero => intro start base; rfl
  | succ r ih =>
    intro start base
    simp [vethSeg, ih (start + 1) (base + 1)]

theorem bridgeSeg_addrNums (cfg : Config) :
    ∀ rem start base,
      (bridgeSeg cfg start rem base).map (fun e => e.2.1.addr.addr) =
        List.range' base rem := by
  intro rem
  induction rem with
  | zero => intro start base; rfl
  | succ r ih =>
    intro start base
    rw [List.range'_succ]
    simp only [bridgeSeg, List.map_cons]
    rw [ih (start + 1) (base + 1)]
    rfl

theorem vethSeg_addrNums (cfg : Config) :
    ∀ rem start base,
      (vethSeg cfg start rem base).map (fun e => e.2.1.addr.addr) =
        List.range' base rem := by
  intro rem
  induction rem with
  | zero => intro start base; rfl
  | succ r ih =>
    intro start base
    rw [List.range'_succ]
    simp only [vethSeg, List.map_cons]
    rw [ih (start + 1) (base + 1)]
    rfl

theorem bridgeSeg_prefixLen (cfg : Config) :
    ∀ rem start base, ∀ e ∈ bridgeSeg cfg start rem base,
      e.2.1.addr.prefixLen = cfg.net.prefixLen := by
  intro rem
  induction rem with
  | zero => intro start base e he; cases he
  | succ r ih =>
    intro start base e he
    rcases List.mem_cons.mp he with h1 | h2
    · subst h1; rfl
    · exact ih (start + 1) (base + 1) e h2

theorem vethSeg_prefixLen (cfg : Config) :
    ∀ rem start base, ∀ e ∈ vethSeg cfg start rem base,
      e.2.1.addr.prefixLen = cfg.net.prefixLen := by
  intro rem
  induction rem with
  | zero => intro start base e he; cases he
  | succ r ih =>
    intro start base e he
    rcases List.mem_cons.mp he with h1 | h2
    · subst h1; rfl
    · exact ih (start + 1) (base + 1) e h2

theorem planData_addrNums (cfg : Config) (n : Nat) (hosts : List Host) (pool : Pool)
    (q : List QOpt) :
    Data.addrNums (planData cfg n hosts pool q) =
      List.range' pool.next (bridgeCount cfg.per_bridge n + n) := by
  unfold Data.addrNums planData
  simp only [bridgeSeg_addrNums, vethSeg_addrNums]
  have := List.range'_append pool.next (bridgeCount cfg.per_bridge n) n 1
  rw [one_mul] at this
  rw [this, Nat.add_comm n (bridgeCount cfg.per_bridge n)]

theorem planData_prefixLen (cfg : Config) (n : Nat) (hosts : List Host) (pool : Pool)
    (q : List QOpt) :
    ∀ a ∈ Data.addrIpNets (planData cfg n hosts pool q),
      a.prefixLen = cfg.net.prefixLen := by
  intro a ha
  unfold Data.addrIpNets planData at ha
  simp only [List.mem_append, List.mem_map] at ha
  rcases ha with ⟨e, he, rfl⟩ | ⟨e, he, rfl⟩
  · exact bridgeSeg_prefixLen cfg _ 0 pool.next e he
  · exact vethSeg_prefixLen cfg n 0 _ e he

/-- Invariant of the sequential per-host fold: the veth keys of each plan
are the 0-based range of its chunk size, the addresses across all plans
are the consecutive positions of the shared pool cursor, and every
address carries the configured prefix length. -/
theorem genHosts_ok (cfg : Config) (hosts : List Host) (hpb : cfg.per_bridge ≠ 0) :
    ∀ (sizes : List Nat) (pool : Pool) (q : List QOpt) plans pool1 q1,
      genHosts cfg hosts sizes pool q = .ok (plans, pool1, q1) →
      List.Forall₂ (fun (d : Data) (m : Nat) =>
          EntryMap.keys d.veth = List.range m ∧ d.veth.length = m) plans sizes ∧
      (∃ t, (plans.map Data.addrNums).flatten = List.range' pool.next t) ∧
      (∀ d ∈ plans, ∀ a ∈ Data.addrIpNets d, a.prefixLen = cfg.net.prefixLen) := by
  intro sizes
  induction sizes with
  | nil =>
    intro pool q plans pool1 q1 h
    simp only [genHosts] at h
    cases h
    refine ⟨List.Forall₂.nil, ⟨0, rfl⟩, by intro d hd; cases hd⟩
  | cons m rest ih =>
    intro pool q plans pool1 q1 h
    simp only [genHosts] at h
    rw [generate_one_eq cfg m hosts pool q hpb] at h
    by_cases hle : bridgeCount cfg.per_bridge m + m ≤ pool.remaining
    · rw [if_pos hle] at h
      dsimp only at h
      match hrec : genHosts cfg hosts rest
          ⟨pool.next + bridgeCount cfg.per_bridge m + m,
           pool.remaining - (bridgeCount cfg.per_bridge m + m)⟩ (q.drop m) with
      | .panicked e => rw [hrec] at h; cases h
      | .err e => rw [hrec] at h; cases h
      | .ok (ds, pool2, q2) =>
        rw [hrec] at h
        cases h
        obtain ⟨hall, ⟨t, ht⟩, hpl⟩ := ih _ _ _ _ _ hrec
        refine ⟨?_, ?_, ?_⟩
        · refine List.Forall₂.cons ⟨?_, ?_⟩ hall
          · show EntryMap.keys (planData cfg m hosts pool q).veth = List.range m
            unfold planData
            show EntryMap.keys (vethSeg cfg 0 m _) = List.range m
            rw [vethSeg_keys, List.range_eq_range']
          · show (planData cfg m hosts pool q).veth.length = m
            unfold planData
            exact vethSeg_length cfg m 0 _
        · refine ⟨t + (bridgeCount cfg.per_bridge m + m), ?_⟩
          simp only [List.map_cons, List.flatten_cons]
          rw [planData_addrNums, ht]
          have := List.range'_append pool.next (bridgeCount cfg.per_bridge m + m) t 1
          rw [one_mul] at this
          rw [← Nat.add_assoc] at this
          exact this
        · intro d hd
          rcases List.mem_cons.mp hd with h1 | h2
          · subst h1
            exact planData_prefixLen cfg m hosts pool q
          · exact hpl d h2
    · rw [if_neg hle] at h
      cases h

theorem forall2_map_length :
    ∀ (plans : List Data) (sizes : List Nat),
      List.Forall₂ (fun (d : Data) (m : Nat) =>
        EntryMap.keys d.veth = List.range m ∧ d.veth.length = m) plans sizes →
      plans.map (fun d => d.veth.length) = sizes := by
  intro plans sizes h
  induction h with
  | nil => rfl
  | cons hd _ ih => simp [hd.2, ih]

theorem hostSizes_cons (n h : Nat) :
    hostSizes n (h + 1) =
      (n / (h + 1) + n % (h + 1)) :: List.replicate h (n / (h + 1)) := by
  unfold hostSizes
  rw [List.range_succ_eq_map]
  simp only [List.map_cons, if_pos rfl, List.map_map]
  congr 1
  have : ((fun i => if i = 0 then n / (h + 1) + n % (h + 1) else n / (h + 1)) ∘ Nat.succ) =
      fun (_ : Nat) => n / (h + 1) := by
    funext i
    simp [Function.comp, Nat.succ_ne_zero]
  rw [this, List.map_const', List.length_range]

theorem hostSizes_sum (n h : Nat) : (hostSizes n (h + 1)).sum = n := by
  rw [hostSizes_cons]
  simp only [List.sum_cons, List.sum_replicate, smul_eq_mul]
  have hdm := Nat.div_add_mod n (h + 1)
  have hsm : (h + 1) * (n / (h + 1)) = h * (n / (h + 1)) + n / (h + 1) := by ring
  omega

theorem plansKeyUnion_subset (a : Nat) :
    ∀ (ds : List Data) (ms : List Nat),
      List.Forall₂ (fun (d : Data) (m : Nat) =>
        EntryMap.keys d.veth = List.range m ∧ d.veth.length = m) ds ms →
      (∀ m ∈ ms, m ≤ a) → plansKeyUnion ds ⊆ Finset.range a := by
  intro ds ms h
  induction h with
  | nil =>
    intro _
    simp [plansKeyUnion]
  | @cons d m ds' ms' hd _ ih =>
    intro hbound
    show (EntryMap.keys d.veth).toFinset ∪ plansKeyUnion ds' ⊆ Finset.range a
    apply Finset.union_subset
    · rw [hd.1, toFinset_listRange]
      exact Finset.range_subset.mpr (hbound m (List.mem_cons_self m ms'))
    · exact ih (fun x hx => hbound x (List.mem_cons_of_mem m hx))

/-- C2 amended: for H hosts and N total instances the planner returns H
plans whose veth-map sizes are N/H + N%H for host 0 (which equals
N − (H−1)·⌊N/H⌋, one of the claimed forms) and ⌊N/H⌋ for every other
host, summing to N; but every plan numbers its instances from zero, so
the union of instance indices across hosts is range(N/H + N%H) — its
cardinality is the largest chunk size, not N. -/
theorem generate_partition_amended (cfg : Config) (n : Nat) (hosts : List Host)
    (pool : Pool) (q : List QOpt) (plans : List Data) (pool1 : Pool) (q1 : List QOpt)
    (hpb : cfg.per_bridge ≠ 0)
    (hok : generate cfg n hosts pool q = .ok (plans, pool1, q1)) :
    plans.length = hosts.length ∧
    plans.map (fun d => d.veth.length) = hostSizes n hosts.length ∧
    (hostSizes n hosts.length).sum = n ∧
    (plans.map (fun d => d.veth.length)).sum = n ∧
    plans.head?.map (fun d => d.veth.length) =
      some (n / hosts.length + n % hosts.length) ∧
    n / hosts.length + n % hosts.length =
      n - (hosts.length - 1) * (n / hosts.length) ∧
    plansKeyUnion plans = Finset.range (n / hosts.length + n % hosts.length) ∧
    (plansKeyUnion plans).card = n / hosts.length + n % hosts.length := by
  unfold generate at hok
  by_cases hH : hosts.length = 0
  · rw [if_pos hH] at hok
    cases hok
  · rw [if_neg hH] at hok
    obtain ⟨h, hh⟩ : ∃ h, hosts.length = h + 1 :=
      ⟨hosts.length - 1, by omega⟩
    rw [hh] at hok ⊢
    obtain ⟨hall, _, _⟩ := genHosts_ok cfg hosts hpb _ _ _ _ _ _ hok
    have hmap := forall2_map_length plans _ hall
    have hlen : plans.length = h + 1 := by
      have := congrArg List.length hmap
      simp only [List.length_map] at this
      rw [this, hostSizes_cons]
      simp
    have hsum := hostSizes_sum n h
    have hcons := hostSizes_cons n h
    have hallc := hall
    rw [hcons] at hallc
    have hunion : plansKeyUnion plans = Finset.range (n / (h + 1) + n % (h + 1)) := by
      cases hallc with
      | cons hd htail =>
        show (EntryMap.keys _).toFinset ∪ plansKeyUnion _ = _
        rw [hd.1, toFinset_listRange]
        apply Finset.union_eq_left.mpr
        exact plansKeyUnion_subset _ _ _ htail
          (by
            intro m hm
            rw [List.eq_of_mem_replicate hm]
            omega)
    refine ⟨hlen, hmap, hsum, by rw [hmap]; exact hsum, ?_, ?_, hunion, ?_⟩
    · cases hallc with
      | cons hd htail =>
        simp [List.head?, hd.2]
    · obtain ⟨qv, hq⟩ : ∃ qv, n / (h + 1) = qv := ⟨_, rfl⟩
      obtain ⟨rv, hr⟩ : ∃ rv, n % (h + 1) = rv := ⟨_, rfl⟩
      have hdm := Nat.div_add_mod n (h + 1)
      rw [hq, hr] at hdm ⊢
      have hsm : (h + 1) * qv = h * qv + qv := by ring
      rw [hsm] at hdm
      simp only [Nat.add_sub_cancel]
      omega
    · rw [hunion, Finset.card_range]

/-- C5: in every successful planner run the addresses across all bridges
and veths of all returned plans are exactly the consecutive positions of
the single advancing pool iterator starting at its cursor — hence
pairwise distinct — and every address carries the configured CIDR prefix
length. -/
theorem generate_addresses_distinct (cfg : Config) (n : Nat) (hosts : List Host)
    (pool : Pool) (q : List QOpt) (plans : List Data) (pool1 : Pool) (q1 : List QOpt)
    (hpb : cfg.per_bridge ≠ 0)
    (hok : generate cfg n hosts pool q = .ok (plans, pool1, q1)) :
    (∃ t, (plans.map Data.addrNums).flatten = List.range' pool.next t) ∧
    ((plans.map Data.addrNums).flatten).Nodup ∧
    (∀ d ∈ plans, ∀ a ∈ Data.addrIpNets d, a.prefixLen = cfg.net.prefixLen) := by
  unfold generate at hok
  by_cases hH : hosts.length = 0
  · rw [if_pos hH] at hok
    cases hok
  · rw [if_neg hH] at hok
    obtain ⟨_, ⟨t, ht⟩, hpl⟩ := genHosts_ok cfg hosts hpb _ _ _ _ _ _ hok
    refine ⟨⟨t, ht⟩, ?_, hpl⟩
    rw [ht]
    exact List.nodup_range' pool.next t

/-- C5 witness: the distinctness statement evaluated on a concrete
two-host ten-instance run. -/
theorem generate_addresses_distinct_witness :
    (∃ t, (((generate cfg8 10 hosts8 poolC []).getOk.1).map Data.addrNums).flatten =
      List.range' poolC.next t) ∧
    ((((generate cfg8 10 hosts8 poolC []).getOk.1).map Data.addrNums).flatten).Nodup ∧
    (∀ d ∈ (generate cfg8 10 hosts8 poolC []).getOk.1,
      ∀ a ∈ Data.addrIpNets d, a.prefixLen = cfg8.net.prefixLen) := by
  have h := generate_addresses_distinct cfg8 10 hosts8 poolC []
    ((generate cfg8 10 hosts8 poolC []).getOk.1)
    ((generate cfg8 10 hosts8 poolC []).getOk.2.1)
    ((generate cfg8 10 hosts8 poolC []).getOk.2.2)
    (by decide) (by decide)
  exact h

/-- C2 witness: the amended statement evaluated on a concrete two-host
three-instance run. -/
theorem generate_partition_amended_witness :
    ((generate cfg8 3 hosts8 poolC []).getOk.1).length = hosts8.length ∧
    (plansKeyUnion ((generate cfg8 3 hosts8 poolC []).getOk.1)).card =
      3 / hosts8.length + 3 % hosts8.length := by
  have h := generate_partition_amended cfg8 3 hosts8 poolC []
    ((generate cfg8 3 hosts8 poolC []).getOk.1)
    ((generate cfg8 3 hosts8 poolC []).getOk.2.1)
    ((generate cfg8 3 hosts8 poolC []).getOk.2.2)
    (by decide) (by decide)
  exact ⟨h.1, h.2.2.2.2.2.2.2⟩

/-- C2 counterexample: with N = 3 instances over H = 2 hosts the instance
indices of the two plans are 0,1 and 0 — the union has cardinality 2,
not N = 3, refuting the claimed partition of 0..N across hosts. -/
theorem generate_union_card_cex :
    (plansKeyUnion ((generate cfg8 3 hosts8 poolC []).getOk.1)).card = 2 ∧
    (2 : Nat) ≠ 3 ∧
    (((generate cfg8 3 hosts8 poolC []).getOk.1).map
      (fun d => d.veth.length)).sum = 3 := by
  refine ⟨by decide, by decide, by decide⟩

/-
Deploy-phase characterizations (C1, C3, C10 groundwork).
-/

/-- Mark a Pending entry Deployed, leave any other state unchanged. -/
def markEntry (e : Nat × α × State) : Nat × α × State :=
  (e.1, (e.2.1, if e.2.2 = State.Pending then State.Deployed else e.2.2))

/-- Mark every Pending entry of a map Deployed. -/
def EntryMap.markAll (m : EntryMap α) : EntryMap α := m.map markEntry

/-- The apply verbs a deploy loop issues: one per Pending entry. -/
def pendingApplies (f : α → Event) (m : EntryMap α) : List Event :=
  m.filterMap (fun e => if e.2.2 = State.Pending then some (f e.2.1) else none)

/-- The connector events of a trace, with their bridge arguments. -/
def bridgeConnects (tr : List Event) : List (String × Bridge × Bridge) :=
  tr.filterMap (fun e =>
    match e with
    | Event.bridgeConnect pfx b1 b2 => some (pfx, b1, b2)
    | _ => none)

theorem markAll_nonpending (m : EntryMap α) :
    ∀ e ∈ m.markAll, e.2.2 ≠ State.Pending := by
  intro e he
  simp only [EntryMap.markAll, List.mem_map] at he
  obtain ⟨x, _, rfl⟩ := he
  simp only [markEntry]
  by_cases h : x.2.2 = State.Pending <;> simp [h]

theorem markAll_idem (m : EntryMap α) : m.markAll.markAll = m.markAll := by
  simp only [EntryMap.markAll, List.map_map]
  apply List.map_congr_left
  intro e _
  simp only [Function.comp, markEntry]
  by_cases h : e.2.2 = State.Pending <;> simp [h]

theorem pendingApplies_markAll (f : α → Event) (m : EntryMap α) :
    pendingApplies f m.markAll = [] := by
  rw [pendingApplies, List.filterMap_eq_nil_iff]
  intro e he
  rw [if_neg (markAll_nonpending m e he)]

theorem markAll_values (m : EntryMap α) :
    EntryMap.values m.markAll = EntryMap.values m := by
  simp [EntryMap.values, EntryMap.markAll, List.map_map, Function.comp, markEntry]

theorem markAll_keys (m : EntryMap α) :
    EntryMap.keys m.markAll = EntryMap.keys m := by
  simp [EntryMap.keys, EntryMap.markAll, List.map_map, Function.comp, markEntry]

theorem mem_markAll_of_deployed (m : EntryMap α) (k : Nat) (a : α)
    (h : (k, (a, State.Deployed)) ∈ m) : (k, (a, State.Deployed)) ∈ m.markAll := by
  rw [EntryMap.markAll]
  have := List.mem_map_of_mem markEntry h
  simpa [markEntry] using this

theorem mem_markAll_of_pending (m : EntryMap α) (k : Nat) (a : α)
    (h : (k, (a, State.Pending)) ∈ m) : (k, (a, State.Deployed)) ∈ m.markAll := by
  rw [EntryMap.markAll]
  have := List.mem_map_of_mem markEntry h
  simpa [markEntry] using this

theorem get_markAll (m : EntryMap α) (k : Nat) :
    EntryMap.get m.markAll k = (EntryMap.get m k).map
      (fun p => (p.1, if p.2 = State.Pending then State.Deployed else p.2)) := by
  induction m with
  | nil => rfl
  | cons e rest ih =>
    obtain ⟨k', a, s⟩ := e
    by_cases h : k' = k
    · subst h
      simp [EntryMap.markAll, EntryMap.get, markEntry]
    · simp only [EntryMap.markAll, List.map_cons, markEntry, EntryMap.get, if_neg h]
      exact ih

theorem deployBridges_eq :
    ∀ m : EntryMap Bridge,
      deployBridges m = (m.markAll, pendingApplies Event.bridgeApply m) := by
  intro m
  induction m with
  | nil => rfl
  | cons e rest ih =>
    obtain ⟨k, b, s⟩ := e
    by_cases h : s = State.Pending <;>
      simp [deployBridges, ih, h, EntryMap.markAll, markEntry, pendingApplies]

theorem connectors_eq (pfx : String) :
    ∀ bs : List Bridge,
      connectors pfx bs =
        (bs.zip bs.tail).map (fun p => Event.bridgeConnect pfx p.1 p.2) := by
  intro bs
  induction bs with
  | nil => rfl
  | cons b rest ih =>
    cases rest with
    | nil => rfl
    | cons b2 r2 =>
      show Event.bridgeConnect pfx b b2 :: connectors pfx (b2 :: r2) = _
      rw [ih]
      rfl

theorem deployVxlans_nonpending (bridges : EntryMap Bridge) :
    ∀ m : EntryMap Vxlan, (∀ e ∈ m, e.2.2 ≠ State.Pending) →
      deployVxlans bridges m = .ok (m, []) := by
  intro m
  induction m with
  | nil => intro _; rfl
  | cons e rest ih =>
    intro h
    obtain ⟨k, v, s⟩ := e
    have hs : s ≠ State.Pending := h (k, (v, s)) (List.mem_cons_self _ _)
    simp only [deployVxlans, if_neg hs]
    rw [ih (fun x hx => h x (List.mem_cons_of_mem _ hx))]

theorem deployVxlans_cons (k0 : Nat) (b0 : Bridge) (s0 : State)
    (tl : EntryMap Bridge) :
    ∀ m : EntryMap Vxlan,
      deployVxlans ((k0, (b0, s0)) :: tl) m =
        .ok (m.markAll, pendingApplies (Event.vxlanApply b0) m) := by
  intro m
  induction m with
  | nil => rfl
  | cons e rest ih =>
    obtain ⟨k, v, s⟩ := e
    by_cases h : s = State.Pending <;>
      simp [deployVxlans, ih, h, EntryMap.markAll, markEntry, pendingApplies]

theorem deployVxlans_ok_mark (bridges : EntryMap Bridge) :
    ∀ (m m' : EntryMap Vxlan) evs,
      deployVxlans bridges m = .ok (m', evs) → m' = m.markAll := by
  intro m
  induction m with
  | nil =>
    intro m' evs h
    cases h
    rfl
  | cons e rest ih =>
    intro m' evs h
    obtain ⟨k, v, s⟩ := e
    by_cases hs : s = State.Pending
    · subst hs
      simp only [deployVxlans, if_pos rfl] at h
      match bridges, h with
      | (kb, (b, sb)) :: tlb, h =>
        match hrec : deployVxlans ((kb, (b, sb)) :: tlb) rest with
        | .error e2 => rw [hrec] at h; cases h
        | .ok (rest', evs2) =>
          rw [hrec] at h
          cases h
          rw [ih _ _ hrec]
          simp [EntryMap.markAll, markEntry]
    · simp only [deployVxlans, if_neg hs] at h
      match hrec : deployVxlans bridges rest with
      | .error e2 => rw [hrec] at h; cases h
      | .ok (rest', evs2) =>
        rw [hrec] at h
        cases h
        rw [ih _ _ hrec]
        simp [EntryMap.markAll, markEntry, hs]

theorem deployVxlans_events (bridges : EntryMap Bridge) :
    ∀ (m m' : EntryMap Vxlan) evs,
      deployVxlans bridges m = .ok (m', evs) →
      ∀ e ∈ evs, ∃ b v, e = Event.vxlanApply b v := by
  intro m
  induction m with
  | nil =>
    intro m' evs h
    cases h
    intro e he
    cases he
  | cons x rest ih =>
    intro m' evs h
    obtain ⟨k, v, s⟩ := x
    by_cases hs : s = State.Pending
    · subst hs
      simp only [deployVxlans, if_pos rfl] at h
      match bridges, h with
      | (kb, (b, sb)) :: tlb, h =>
        match hrec : deployVxlans ((kb, (b, sb)) :: tlb) rest with
        | .error e2 => rw [hrec] at h; cases h
        | .ok (rest', evs2) =>
          rw [hrec] at h
          cases h
          intro e he
          rcases List.mem_cons.mp he with h1 | h2
          · exact ⟨b, v, h1⟩
          · exact ih _ _ hrec e h2
    · simp only [deployVxlans, if_neg hs] at h
      match hrec : deployVxlans bridges rest with
      | .error e2 => rw [hrec] at h; cases h
      | .ok (rest', evs2) =>
        rw [hrec] at h
        cases h
        exact ih _ _ hrec

theorem get_setState_same (qd : EntryMap Qdisc) (k : Nat) (s : State) :
    EntryMap.get (EntryMap.setState qd k s) k =
      (EntryMap.get qd k).map (fun p => (p.1, s)) := by
  induction qd with
  | nil => rfl
  | cons e rest ih =>
    obtain ⟨k', a, s'⟩ := e
    by_cases h : k' = k
    · subst h
      simp [EntryMap.setState, EntryMap.get]
    · simp only [EntryMap.setState, EntryMap.get, if_neg h]
      exact ih

theorem get_setState_other (qd : EntryMap Qdisc) (k k' : Nat) (s : State)
    (h : k' ≠ k) :
    EntryMap.get (EntryMap.setState qd k' s) k = EntryMap.get qd k := by
  induction qd with
  | nil => rfl
  | cons e rest ih =>
    obtain ⟨k'', a, s''⟩ := e
    by_cases h2 : k'' = k'
    · subst h2
      simp [EntryMap.setState, EntryMap.get, h]
    · simp only [EntryMap.setState, EntryMap.get, if_neg h2]
      by_cases h3 : k'' = k
      · simp [if_pos h3]
      · simp only [if_neg h3]
        exact ih

/-- No qdisc stored under this key is still Pending. -/
def qdNonPending (qd : EntryMap Qdisc) (k : Nat) : Prop :=
  ∀ qv, EntryMap.get qd k ≠ some (qv, State.Pending)

theorem qdNonPending_setState_self (qd : EntryMap Qdisc) (k : Nat) :
    qdNonPending (EntryMap.setState qd k State.Deployed) k := by
  intro qv
  rw [get_setState_same]
  cases EntryMap.get qd k with
  | none => simp
  | some p => simp

theorem qdNonPending_setState (qd : EntryMap Qdisc) (k k' : Nat)
    (h : qdNonPending qd k) :
    qdNonPending (EntryMap.setState qd k' State.Deployed) k := by
  by_cases he : k' = k
  · subst he
    exact qdNonPending_setState_self qd k'
  · intro qv
    rw [get_setState_other qd k k' State.Deployed he]
    exact h qv

theorem deployVeths_nonpending (cfg : Config) (bridges : EntryMap Bridge) :
    ∀ (veths : EntryMap NamespaceVeth) (qd : EntryMap Qdisc),
      (∀ e ∈ veths, e.2.2 ≠ State.Pending) →
      (∀ e ∈ veths, qdNonPending qd e.1) →
      deployVeths cfg bridges veths qd = .ok (veths, qd, []) := by
  intro veths
  induction veths with
  | nil => intro qd _ _; rfl
  | cons e rest ih =>
    intro qd hs hq
    obtain ⟨index, veth, s⟩ := e
    have hsne : s ≠ State.Pending := hs _ (List.mem_cons_self _ _)
    have hqk : qdNonPending qd index := hq _ (List.mem_cons_self _ _)
    have hrec := ih qd (fun x hx => hs x (List.mem_cons_of_mem _ hx))
      (fun x hx => hq x (List.mem_cons_of_mem _ hx))
    match hg : EntryMap.get qd index with
    | some (qv, State.Pending) => exact absurd hg (hqk qv)
    | none => simp [deployVeths, if_neg hsne, hg, hrec]
    | some (qv, State.Deployed) => simp [deployVeths, if_neg hsne, hg, hrec]
    | some (qv, State.Deleting) => simp [deployVeths, if_neg hsne, hg, hrec]
    | some (qv, State.Failed) => simp [deployVeths, if_neg hsne, hg, hrec]

theorem deployVeths_monotone (cfg : Config) (bridges : EntryMap Bridge) :
    ∀ (veths : EntryMap NamespaceVeth) (qd : EntryMap Qdisc) v' qd' tr,
      deployVeths cfg bridges veths qd = .ok (v', qd', tr) →
      ∀ k, qdNonPending qd k → qdNonPending qd' k := by
  intro veths
  induction veths with
  | nil =>
    intro qd v' qd' tr h k hk
    cases h
    exact hk
  | cons e rest ih =>
    intro qd v' qd' tr h k hk
    obtain ⟨index, veth, s⟩ := e
    by_cases hs : s = State.Pending
    · subst hs
      by_cases hpb : cfg.per_bridge = 0
      · simp [deployVeths, hpb] at h
      · match hb : EntryMap.get bridges (index / cfg.per_bridge) with
        | none => simp [deployVeths, hpb, hb] at h
        | some bv =>
          simp only [deployVeths, if_pos rfl, if_neg hpb, hb] at h
          match hg : EntryMap.get qd index with
          | some (qv, State.Pending) =>
            rw [hg] at h
            simp only at h
            match hrec : deployVeths cfg bridges rest
                (EntryMap.setState qd index State.Deployed) with
            | .panicked e2 => rw [hrec] at h; cases h
            | .err e2 => rw [hrec] at h; cases h
            | .ok (r1, r2, r3) =>
              rw [hrec] at h
              cases h
              exact ih _ _ _ _ hrec k (qdNonPending_setState qd k index hk)
          | none =>
            rw [hg] at h
            simp only at h
            match hrec : deployVeths cfg bridges rest qd with
            | .panicked e2 => rw [hrec] at h; cases h
            | .err e2 => rw [hrec] at h; cases h
            | .ok (r1, r2, r3) =>
              rw [hrec] at h
              cases h
              exact ih _ _ _ _ hrec k hk
          | some (qv, State.Deployed) =>
            rw [hg] at h
            simp only at h
            match hrec : deployVeths cfg bridges rest qd with
            | .panicked e2 => rw [hrec] at h; cases h
            | .err e2 => rw [hrec] at h; cases h
            | .ok (r1, r2, r3) =>
              rw [hrec] at h
              cases h
              exact ih _ _ _ _ hrec k hk
          | some (qv, State.Deleting) =>
            rw [hg] at h
            simp only at h
            match hrec : deployVeths cfg bridges rest qd with
            | .panicked e2 => rw [hrec] at h; cases h
            | .err e2 => rw [hrec] at h; cases h
            | .ok (r1, r2, r3) =>
              rw [hrec] at h
              cases h
              exact ih _ _ _ _ hrec k hk
          | some (qv, State.Failed) =>
            rw [hg] at h
            simp only at h
            match hrec : deployVeths cfg bridges rest qd with
            | .panicked e2 => rw [hrec] at h; cases h
            | .err e2 => rw [hrec] at h; cases h
            | .ok (r1, r2, r3) =>
              rw [hrec] at h
              cases h
              exact ih _ _ _ _ hrec k hk
    · simp only [deployVeths, if_neg hs] at h
      match hg : EntryMap.get qd index with
      | some (qv, State.Pending) =>
        rw [hg] at h
        simp only at h
        match hrec : deployVeths cfg bridges rest
            (EntryMap.setState qd index State.Deployed) with
        | .panicked e2 => rw [hrec] at h; cases h
        | .err e2 => rw [hrec] at h; cases h
        | .ok (r1, r2, r3) =>
          rw [hrec] at h
          cases h
          exact ih _ _ _ _ hrec k (qdNonPending_setState qd k index hk)
      | none =>
        rw [hg] at h
        simp only at h
        match hrec : deployVeths cfg bridges rest qd with
        | .panicked e2 => rw [hrec] at h; cases h
        | .err e2 => rw [hrec] at h; cases h
        | .ok (r1, r2, r3) =>
          rw [hrec] at h
          cases h
          exact ih _ _ _ _ hrec k hk
      | some (qv, State.Deployed) =>
        rw [hg] at h
        simp only at h
        match hrec : deployVeths cfg bridges rest qd with
        | .panicked e2 => rw [hrec] at h; cases h
        | .err e2 => rw [hrec] at h; cases h
        | .ok (r1, r2, r3) =>
          rw [hrec] at h
          cases h
          exact ih _ _ _ _ hrec k hk
      | some (qv, State.Deleting) =>
        rw [hg] at h
        simp only at h
        match hrec : deployVeths cfg bridges rest qd with
        | .panicked e2 => rw [hrec] at h; cases h
        | .err e2 => rw [hrec] at h; cases h
        | .ok (r1, r2, r3) =>
          rw [hrec] at h
          cases h
          exact ih _ _ _ _ hrec k hk
      | some (qv, State.Failed) =>
        rw [hg] at h
        simp only at h
        match hrec : deployVeths cfg bridges rest qd with
        | .panicked e2 => rw [hrec] at h; cases h
        | .err e2 => rw [hrec] at h; cases h
        | .ok (r1, r2, r3) =>
          rw [hrec] at h
          cases h
          exact ih _ _ _ _ hrec k hk

/-- The per-entry veth action of the deploy loop (namespace creation,
bridge lookup, veth apply), split out of deployVeths for reasoning. -/
def vethStep (cfg : Config) (bridges : EntryMap Bridge) (index : Nat)
    (veth : NamespaceVeth) (s : State) :
    RRes ((Nat × NamespaceVeth × State) × List Event) :=
  if s = State.Pending then
    if cfg.per_bridge = 0 then
      RRes.panicked "attempt to divide by zero"
    else
      match EntryMap.get bridges (index / cfg.per_bridge) with
      | none => RRes.err "no bridge"
      | some (b, _) =>
        RRes.ok ((index, (veth, State.Deployed)),
                 [Event.namespaceApply veth.ns, Event.vethApply veth b])
  else RRes.ok ((index, (veth, s)), [])

/-- The per-entry qdisc action of the deploy loop. -/
def qdStep (qd : EntryMap Qdisc) (index : Nat) (veth : NamespaceVeth) :
    EntryMap Qdisc × List Event :=
  match EntryMap.get qd index with
  | some (qv, State.Pending) =>
    (EntryMap.setState qd index State.Deployed, [Event.qdiscApply veth qv])
  | _ => (qd, [])

theorem deployVeths_cons_eq (cfg : Config) (bridges : EntryMap Bridge)
    (index : Nat) (veth : NamespaceVeth) (s : State)
    (rest : EntryMap NamespaceVeth) (qd : EntryMap Qdisc) :
    deployVeths cfg bridges ((index, (veth, s)) :: rest) qd =
      match vethStep cfg bridges index veth s with
      | .panicked e => .panicked e
      | .err e => .err e
      | .ok (entry, evs1) =>
        match deployVeths cfg bridges rest (qdStep qd index veth).1 with
        | .panicked e => .panicked e
        | .err e => .err e
        | .ok (rest', qd2, evs3) =>
          .ok (entry :: rest', qd2, evs1 ++ (qdStep qd index veth).2 ++ evs3) := by
  rfl

theorem vethStep_ok_entry (cfg : Config) (bridges : EntryMap Bridge)
    (index : Nat) (veth : NamespaceVeth) (s : State) (entry : Nat × NamespaceVeth × State)
    (evs1 : List Event) (h : vethStep cfg bridges index veth s = .ok (entry, evs1)) :
    entry = markEntry (index, (veth, s)) := by
  unfold vethStep at h
  by_cases hs : s = State.Pending
  · rw [if_pos hs] at h
    by_cases hpb : cfg.per_bridge = 0
    · rw [if_pos hpb] at h
      cases h
    · rw [if_neg hpb] at h
      match hb : EntryMap.get bridges (index / cfg.per_bridge) with
      | none => rw [hb] at h; cases h
      | some (b, sb) =>
        rw [hb] at h
        cases h
        simp [markEntry, hs]
  · rw [if_neg hs] at h
    cases h
    simp [markEntry, hs]

theorem vethStep_ok_events (cfg : Config) (bridges : EntryMap Bridge)
    (index : Nat) (veth : NamespaceVeth) (s : State) (entry : Nat × NamespaceVeth × State)
    (evs1 : List Event) (h : vethStep cfg bridges index veth s = .ok (entry, evs1)) :
    evs1 = [] ∨ ∃ b, evs1 = [Event.namespaceApply veth.ns, Event.vethApply veth b] := by
  unfold vethStep at h
  by_cases hs : s = State.Pending
  · rw [if_pos hs] at h
    by_cases hpb : cfg.per_bridge = 0
    · rw [if_pos hpb] at h
      cases h
    · rw [if_neg hpb] at h
      match hb : EntryMap.get bridges (index / cfg.per_bridge) with
      | none => rw [hb] at h; cases h
      | some (b, sb) =>
        rw [hb] at h
        cases h
        exact Or.inr ⟨b, rfl⟩
  · rw [if_neg hs] at h
    cases h
    exact Or.inl rfl

theorem qdStep_nonPending_self (qd : EntryMap Qdisc) (index : Nat)
    (veth : NamespaceVeth) : qdNonPending (qdStep qd index veth).1 index := by
  unfold qdStep
  match hg : EntryMap.get qd index with
  | some (qv, State.Pending) =>
    exact qdNonPending_setState_self qd index
  | none => intro qv; simp [hg]
  | some (qv, State.Deployed) => intro qv2; simp [hg]
  | some (qv, State.Deleting) => intro qv2; simp [hg]
  | some (qv, State.Failed) => intro qv2; simp [hg]

theorem qdStep_preserve (qd : EntryMap Qdisc) (index : Nat) (veth : NamespaceVeth)
    (k : Nat) (h : qdNonPending qd k) : qdNonPending (qdStep qd index veth).1 k := by
  unfold qdStep
  match hg : EntryMap.get qd index with
  | some (qv, State.Pending) => exact qdNonPending_setState qd k index h
  | none => exact h
  | some (qv, State.Deployed) => exact h
  | some (qv, State.Deleting) => exact h
  | some (qv, State.Failed) => exact h

theorem qdStep_of_nonPending (qd : EntryMap Qdisc) (index : Nat)
    (veth : NamespaceVeth) (h : qdNonPending qd index) :
    qdStep qd index veth = (qd, []) := by
  unfold qdStep
  match hg : EntryMap.get qd index with
  | some (qv, State.Pending) => exact absurd hg (h qv)
  | none => rfl
  | some (qv, State.Deployed) => rfl
  | some (qv, State.Deleting) => rfl
  | some (qv, State.Failed) => rfl

theorem qdStep_events (qd : EntryMap Qdisc) (index : Nat) (veth : NamespaceVeth) :
    (qdStep qd index veth).2 = [] ∨
    ∃ qv, (qdStep qd index veth).2 = [Event.qdiscApply veth qv] := by
  unfold qdStep
  match hg : EntryMap.get qd index with
  | some (qv, State.Pending) => exact Or.inr ⟨qv, rfl⟩
  | none => exact Or.inl rfl
  | some (qv, State.Deployed) => exact Or.inl rfl
  | some (qv, State.Deleting) => exact Or.inl rfl
  | some (qv, State.Failed) => exact Or.inl rfl

theorem deployVeths_post (cfg : Config) (bridges : EntryMap Bridge) :
    ∀ (veths : EntryMap NamespaceVeth) (qd : EntryMap Qdisc) v' qd' tr,
      deployVeths cfg bridges veths qd = .ok (v', qd', tr) →
      v' = veths.markAll ∧ (∀ k ∈ EntryMap.keys veths, qdNonPending qd' k) := by
  intro veths
  induction veths with
  | nil =>
    intro qd v' qd' tr h
    cases h
    exact ⟨rfl, by intro k hk; cases hk⟩
  | cons e rest ih =>
    intro qd v' qd' tr h
    obtain ⟨index, veth, s⟩ := e
    rw [deployVeths_cons_eq] at h
    match hv : vethStep cfg bridges index veth s with
    | .panicked e2 => rw [hv] at h; cases h
    | .err e2 => rw [hv] at h; cases h
    | .ok (entry, evs1) =>
      rw [hv] at h
      match hrec : deployVeths cfg bridges rest (qdStep qd index veth).1 with
      | .panicked e2 => rw [hrec] at h; cases h
      | .err e2 => rw [hrec] at h; cases h
      | .ok (r1, r2, r3) =>
        rw [hrec] at h
        cases h
        obtain ⟨hm, hq⟩ := ih _ _ _ _ hrec
        constructor
        · rw [hm, vethStep_ok_entry cfg bridges index veth s entry evs1 hv]
          rfl
        · intro k hk
          rcases List.mem_cons.mp hk with h1 | h2
          · rw [h1]
            exact deployVeths_monotone cfg bridges _ _ _ _ _ hrec _
              (qdStep_nonPending_self qd index veth)
          · exact hq k h2

theorem deployVeths_trace_kinds (cfg : Config) (bridges : EntryMap Bridge) :
    ∀ (veths : EntryMap NamespaceVeth) (qd : EntryMap Qdisc) v' qd' tr,
      deployVeths cfg bridges veths qd = .ok (v', qd', tr) →
      ∀ e ∈ tr, (∃ ns, e = Event.namespaceApply ns) ∨
        (∃ v b, e = Event.vethApply v b) ∨ (∃ v qv, e = Event.qdiscApply v qv) := by
  intro veths
  induction veths with
  | nil =>
    intro qd v' qd' tr h
    cases h
    intro e he
    cases he
  | cons x rest ih =>
    intro qd v' qd' tr h
    obtain ⟨index, veth, s⟩ := x
    rw [deployVeths_cons_eq] at h
    match hv : vethStep cfg bridges index veth s with
    | .panicked e2 => rw [hv] at h; cases h
    | .err e2 => rw [hv] at h; cases h
    | .ok (entry, evs1) =>
      rw [hv] at h
      match hrec : deployVeths cfg bridges rest (qdStep qd index veth).1 with
      | .panicked e2 => rw [hrec] at h; cases h
      | .err e2 => rw [hrec] at h; cases h
      | .ok (r1, r2, r3) =>
        rw [hrec] at h
        cases h
        intro e he
        simp only [List.mem_append] at he
        rcases he with (he1 | he2) | he3
        · rcases vethStep_ok_events cfg bridges index veth s entry evs1 hv with
            hnil | ⟨b, hevs⟩
          · rw [hnil] at he1; cases he1
          · rw [hevs] at he1
            rcases List.mem_cons.mp he1 with h1 | h1
            · exact Or.inl ⟨veth.ns, h1⟩
            · rcases List.mem_cons.mp h1 with h2 | h2
              · exact Or.inr (Or.inl ⟨veth, b, h2⟩)
              · cases h2
        · rcases qdStep_events qd index veth with hnil | ⟨qv, hevs⟩
          · rw [hnil] at he2; cases he2
          · rw [hevs] at he2
            rcases List.mem_cons.mp he2 with h1 | h1
            · exact Or.inr (Or.inr ⟨veth, qv, h1⟩)
            · cases h1
        · exact ih _ _ _ _ hrec e he3

theorem deployVeths_allPending (cfg : Config) (bridges : EntryMap Bridge)
    (hpb : cfg.per_bridge ≠ 0) :
    ∀ (veths : EntryMap NamespaceVeth) (qd : EntryMap Qdisc),
      (∀ e ∈ veths, e.2.2 = State.Pending) →
      (∀ e ∈ veths, ∃ bv, EntryMap.get bridges (e.1 / cfg.per_bridge) = some bv) →
      ∃ qd' tr, deployVeths cfg bridges veths qd = .ok (veths.markAll, qd', tr) ∧
        vethApplies tr = veths.filterMap (fun e =>
          (EntryMap.get bridges (e.1 / cfg.per_bridge)).map (fun bv => (e.2.1, bv.1))) := by
  intro veths
  induction veths with
  | nil =>
    intro qd _ _
    exact ⟨qd, [], rfl, rfl⟩
  | cons x rest ih =>
    intro qd hpend hlook
    obtain ⟨index, veth, s⟩ := x
    have hs : s = State.Pending := hpend _ (List.mem_cons_self _ _)
    obtain ⟨⟨b, sb⟩, hb⟩ := hlook _ (List.mem_cons_self _ _)
    obtain ⟨qd', tr', hrec, htr⟩ := ih (qdStep qd index veth).1
      (fun e he => hpend e (List.mem_cons_of_mem _ he))
      (fun e he => hlook e (List.mem_cons_of_mem _ he))
    have hv : vethStep cfg bridges index veth s =
        .ok ((index, (veth, State.Deployed)),
             [Event.namespaceApply veth.ns, Event.vethApply veth b]) := by
      unfold vethStep
      rw [if_pos hs, if_neg hpb, hb]
    refine ⟨qd', [Event.namespaceApply veth.ns, Event.vethApply veth b] ++
        (qdStep qd index veth).2 ++ tr', ?_, ?_⟩
    · rw [deployVeths_cons_eq, hv, hrec]
      show _ = RRes.ok (EntryMap.markAll ((index, (veth, s)) :: rest), qd', _)
      simp [EntryMap.markAll, markEntry, hs]
    · simp only [vethApplies, List.filterMap_append] at htr ⊢
      rw [htr]
      have hq : List.filterMap (fun e =>
          match e with
          | Event.vethApply v b => some (v, b)
          | _ => none) (qdStep qd index veth).2 = ([] : List (NamespaceVeth × Bridge)) := by
        rcases qdStep_events qd index veth with hnil | ⟨qv, hevs⟩
        · rw [hnil]; rfl
        · rw [hevs]; rfl
      rw [hq]
      simp [List.filterMap_cons, hb]

/-- Decomposition of a successful deploy run into its four phases. -/
theorem deploy_ok_parts (cfg : Config) (d : Data) (d' : Data) (tr : List Event)
    (h : deploy cfg d = .ok (d', tr)) :
    ∃ evV evW,
      deployVxlans d.bridges.markAll d.vxlan = .ok (d'.vxlan, evV) ∧
      deployVeths cfg d.bridges.markAll d.veth d.qdisc = .ok (d'.veth, d'.qdisc, evW) ∧
      d'.bridges = d.bridges.markAll ∧
      tr = pendingApplies Event.bridgeApply d.bridges ++
           connectors cfg.pfx (EntryMap.values d.bridges) ++ evV ++ evW := by
  unfold deploy at h
  rw [deployBridges_eq] at h
  dsimp only at h
  match hvx : deployVxlans d.bridges.markAll d.vxlan with
  | .error e => rw [hvx] at h; cases h
  | .ok (vx1, evV) =>
    rw [hvx] at h
    match hw : deployVeths cfg d.bridges.markAll d.veth d.qdisc with
    | .panicked e => rw [hw] at h; cases h
    | .err e => rw [hw] at h; cases h
    | .ok (veth1, qd1, evW) =>
      rw [hw] at h
      cases h
      refine ⟨evV, evW, rfl, rfl, rfl, ?_⟩
      rw [markAll_values]

/-- C10 amended: deploy filters the bridge, vxlan, veth and qdisc entries
by Pending state and transitions them to Deployed; entries already
Deployed keep their key, value and state; and re-running deploy on the
result returns the same Data unchanged with a trace consisting solely of
the bridge-to-bridge connector commands, which are re-issued on every
call (so connector veth pairs ARE re-created, but no bridge, vxlan,
namespace, veth or qdisc entry of the maps is re-applied). -/
theorem deploy_rerun_amended (cfg : Config) (d : Data) (d' : Data) (tr : List Event)
    (hok : deploy cfg d = .ok (d', tr)) :
    (∀ k b, (k, (b, State.Deployed)) ∈ d.bridges → (k, (b, State.Deployed)) ∈ d'.bridges) ∧
    (∀ k b, (k, (b, State.Pending)) ∈ d.bridges → (k, (b, State.Deployed)) ∈ d'.bridges) ∧
    (∀ k v, (k, (v, State.Deployed)) ∈ d.vxlan → (k, (v, State.Deployed)) ∈ d'.vxlan) ∧
    (∀ k v, (k, (v, State.Deployed)) ∈ d.veth → (k, (v, State.Deployed)) ∈ d'.veth) ∧
    (∀ k v, (k, (v, State.Pending)) ∈ d.veth → (k, (v, State.Deployed)) ∈ d'.veth) ∧
    deploy cfg d' = .ok (d', connectors cfg.pfx (EntryMap.values d'.bridges)) ∧
    (∀ e ∈ connectors cfg.pfx (EntryMap.values d'.bridges),
      ∃ pfx b1 b2, e = Event.bridgeConnect pfx b1 b2) := by
  obtain ⟨evV, evW, hvx, hw, hbr, htr⟩ := deploy_ok_parts cfg d d' tr hok
  have hvxm : d'.vxlan = d.vxlan.markAll :=
    deployVxlans_ok_mark d.bridges.markAll d.vxlan d'.vxlan evV hvx
  obtain ⟨hvm, hqnp⟩ := deployVeths_post cfg d.bridges.markAll d.veth d.qdisc
    d'.veth d'.qdisc evW hw
  have hrerun : deploy cfg d' = .ok (d', connectors cfg.pfx (EntryMap.values d'.bridges)) := by
    have hvx2 : deployVxlans d'.bridges d'.vxlan = .ok (d'.vxlan, []) := by
      apply deployVxlans_nonpending
      rw [hvxm]
      exact markAll_nonpending d.vxlan
    have hw2 : deployVeths cfg d'.bridges d'.veth d'.qdisc =
        .ok (d'.veth, d'.qdisc, []) := by
      apply deployVeths_nonpending
      · rw [hvm]
        exact markAll_nonpending d.veth
      · intro e he
        apply hqnp
        rw [hvm] at he
        obtain ⟨x, hx, rfl⟩ := List.mem_map.mp he
        show (markEntry x).1 ∈ _
        have hfst : (markEntry x).1 = x.1 := rfl
        rw [hfst]
        simp only [EntryMap.keys, List.mem_map]
        exact ⟨x, hx, rfl⟩
    have hpend2 : pendingApplies Event.bridgeApply d'.bridges = [] := by
      rw [hbr]
      exact pendingApplies_markAll _ _
    have hmark2 : d'.bridges.markAll = d'.bridges := by
      rw [hbr, markAll_idem]
    unfold deploy
    rw [deployBridges_eq, hmark2, hpend2]
    dsimp only
    rw [hvx2]
    dsimp only
    rw [hw2]
    dsimp only
    simp
  refine ⟨?_, ?_, ?_, ?_, ?_, hrerun, ?_⟩
  · intro k b hm
    rw [hbr]
    exact mem_markAll_of_deployed d.bridges k b hm
  · intro k b hm
    rw [hbr]
    exact mem_markAll_of_pending d.bridges k b hm
  · intro k v hm
    rw [hvxm]
    exact mem_markAll_of_deployed d.vxlan k v hm
  · intro k v hm
    rw [hvm]
    exact mem_markAll_of_deployed d.veth k v hm
  · intro k v hm
    rw [hvm]
    exact mem_markAll_of_pending d.veth k v hm
  · intro e he
    rw [connectors_eq] at he
    obtain ⟨p, _, rfl⟩ := List.mem_map.mp he
    exact ⟨cfg.pfx, p.1, p.2, rfl⟩

/-- C3 amended: for every data a successful deploy connects exactly the
CONSECUTIVE pairs of the host's bridges, in map order — a chain, not a
full mesh over all unordered pairs. -/
theorem deploy_connects_consecutive (cfg : Config) (d : Data) (d' : Data)
    (tr : List Event) (hok : deploy cfg d = .ok (d', tr)) :
    bridgeConnects tr =
      ((EntryMap.values d.bridges).zip (EntryMap.values d.bridges).tail).map
        (fun p => (cfg.pfx, p.1, p.2)) := by
  obtain ⟨evV, evW, hvx, hw, hbr, htr⟩ := deploy_ok_parts cfg d d' tr hok
  rw [htr]
  unfold bridgeConnects
  rw [List.filterMap_append, List.filterMap_append, List.filterMap_append]
  have h1 : List.filterMap (fun e =>
      match e with
      | Event.bridgeConnect pfx b1 b2 => some (pfx, b1, b2)
      | _ => none) (pendingApplies Event.bridgeApply d.bridges) = [] := by
    rw [List.filterMap_eq_nil_iff]
    intro e he
    obtain ⟨x, _, hx⟩ := List.mem_filterMap.mp he
    by_cases hp : x.2.2 = State.Pending
    · rw [if_pos hp] at hx
      cases hx
      rfl
    · rw [if_neg hp] at hx
      cases hx
  have hgen : ∀ (l : List (Bridge × Bridge)) (pfx : String),
      List.filterMap (fun e =>
        match e with
        | Event.bridgeConnect p b1 b2 => some (p, b1, b2)
        | _ => none) (l.map (fun p => Event.bridgeConnect pfx p.1 p.2)) =
      l.map (fun p => (pfx, p.1, p.2)) := by
    intro l pfx
    induction l with
    | nil => rfl
    | cons p rest ih => simp [List.filterMap_cons, ih]
  have h2 : List.filterMap (fun e =>
      match e with
      | Event.bridgeConnect pfx b1 b2 => some (pfx, b1, b2)
      | _ => none) (connectors cfg.pfx (EntryMap.values d.bridges)) =
      ((EntryMap.values d.bridges).zip (EntryMap.values d.bridges).tail).map
        (fun p => (cfg.pfx, p.1, p.2)) := by
    rw [connectors_eq]
    exact hgen _ cfg.pfx
  have h3 : List.filterMap (fun e =>
      match e with
      | Event.bridgeConnect pfx b1 b2 => some (pfx, b1, b2)
      | _ => none) evV = [] := by
    rw [List.filterMap_eq_nil_iff]
    intro e he
    obtain ⟨b, v, rfl⟩ := deployVxlans_events d.bridges.markAll d.vxlan d'.vxlan evV hvx e he
    rfl
  have h4 : List.filterMap (fun e =>
      match e with
      | Event.bridgeConnect pfx b1 b2 => some (pfx, b1, b2)
      | _ => none) evW = [] := by
    rw [List.filterMap_eq_nil_iff]
    intro e he
    rcases deployVeths_trace_kinds cfg d.bridges.markAll d.veth d.qdisc
        d'.veth d'.qdisc evW hw e he with ⟨ns, rfl⟩ | ⟨v, b, rfl⟩ | ⟨v, qv, rfl⟩ <;> rfl
  rw [h1, h2, h3, h4]
  simp

theorem bridgeSeg_get (cfg : Config) :
    ∀ rem start base k,
      EntryMap.get (bridgeSeg cfg start rem base) k =
        if start ≤ k ∧ k < start + rem
        then some (Bridge.new k cfg.pfx ⟨base + (k - start), cfg.net.prefixLen⟩,
                   State.Pending)
        else none := by
  intro rem
  induction rem with
  | zero =>
    intro start base k
    rw [if_neg (by omega)]
    rfl
  | succ r ih =>
    intro start base k
    show (if start = k then _ else EntryMap.get (bridgeSeg cfg (start + 1) r (base + 1)) k) = _
    by_cases h : start = k
    · subst h
      rw [if_pos rfl, if_pos (by omega)]
      simp
    · rw [if_neg h, ih (start + 1) (base + 1) k]
      by_cases h2 : start + 1 ≤ k ∧ k < start + 1 + r
      · rw [if_pos h2, if_pos (by omega)]
        have : base + 1 + (k - (start + 1)) = base + (k - start) := by omega
        rw [this]
      · rw [if_neg h2, if_neg (by omega)]

theorem vethSeg_entry (cfg : Config) :
    ∀ rem start base, ∀ e ∈ vethSeg cfg start rem base,
      e.2.2 = State.Pending ∧ start ≤ e.1 ∧ e.1 < start + rem := by
  intro rem
  induction rem with
  | zero => intro start base e he; cases he
  | succ r ih =>
    intro start base e he
    rcases List.mem_cons.mp he with h1 | h2
    · subst h1
      exact ⟨rfl, by omega⟩
    · obtain ⟨hp, h3, h4⟩ := ih (start + 1) (base + 1) e h2
      exact ⟨hp, by omega, by omega⟩

theorem div_lt_bridgeCount (pb n i : Nat) (hpb : pb ≠ 0) (hi : i < n) :
    i / pb < bridgeCount pb n := by
  have hd := Nat.div_add_mod n pb
  unfold bridgeCount
  by_cases hm : n % pb = 0
  · rw [if_pos hm, Nat.add_zero]
    apply (Nat.div_lt_iff_lt_mul (by omega : 0 < pb)).mpr
    rw [Nat.mul_comm]
    rw [hm] at hd
    have hx : pb * (n / pb) = n := by omega
    rw [hx]
    exact hi
  · rw [if_neg hm]
    have hle : i / pb ≤ n / pb := Nat.div_le_div_right (by omega)
    exact Nat.lt_succ_of_le hle

theorem bridgeCount_pos (pb n : Nat) (_hpb : pb ≠ 0) (hn : 0 < n) :
    0 < bridgeCount pb n := by
  have hd := Nat.div_add_mod n pb
  unfold bridgeCount
  by_cases hm : n % pb = 0
  · rw [if_pos hm]
    by_cases hq : n / pb = 0
    · rw [hq, Nat.mul_zero, hm] at hd
      omega
    · simpa using Nat.pos_of_ne_zero hq
  · rw [if_neg hm]
    exact Nat.succ_pos _

/-- C1: for any per_bridge in (0, 1000] and any nonempty successful
generate_one plan, every veth index i has its owning bridge stored at key
i / per_bridge (that bridge's own index field equals i / per_bridge), and
deploy succeeds attaching each veth, in map order, to exactly the bridge
stored under key i / per_bridge. -/
theorem generate_one_bridge_key_and_deploy_attach (cfg : Config) (n : Nat)
    (hosts : List Host) (pool : Pool) (q : List QOpt) (d : Data) (pool1 : Pool)
    (q1 : List QOpt) (hpb0 : 0 < cfg.per_bridge) (hpb1000 : cfg.per_bridge ≤ 1000)
    (hn : 0 < n)
    (hok : generate_one cfg n hosts pool q = .ok (d, pool1, q1)) :
    (∀ i ∈ EntryMap.keys d.veth, i / cfg.per_bridge ∈ EntryMap.keys d.bridges) ∧
    (∀ e ∈ d.veth, ∃ b s, EntryMap.get d.bridges (e.1 / cfg.per_bridge) = some (b, s) ∧
      b.index = e.1 / cfg.per_bridge) ∧
    ∃ d' tr, deploy cfg d = .ok (d', tr) ∧
      vethApplies tr = d.veth.filterMap (fun e =>
        (EntryMap.get d.bridges (e.1 / cfg.per_bridge)).map (fun bv => (e.2.1, bv.1))) := by
  have hpb : cfg.per_bridge ≠ 0 := by omega
  rw [generate_one_eq cfg n hosts pool q hpb] at hok
  by_cases hle : bridgeCount cfg.per_bridge n + n ≤ pool.remaining
  case neg => rw [if_neg hle] at hok; cases hok
  rw [if_pos hle] at hok
  cases hok
  set bc := bridgeCount cfg.per_bridge n with hbc
  have hkeys1 : ∀ i ∈ EntryMap.keys (planData cfg n hosts pool q).veth,
      i / cfg.per_bridge ∈ EntryMap.keys (planData cfg n hosts pool q).bridges := by
    intro i hi
    show i / cfg.per_bridge ∈ EntryMap.keys (bridgeSeg cfg 0 bc pool.next)
    rw [bridgeSeg_keys]
    have hiv : i ∈ EntryMap.keys (vethSeg cfg 0 n (pool.next + bc)) := hi
    rw [vethSeg_keys] at hiv
    have hin : i < n := by
      have := List.mem_range'_1.mp hiv
      omega
    rw [List.mem_range'_1]
    refine ⟨Nat.zero_le _, ?_⟩
    rw [Nat.zero_add]
    exact div_lt_bridgeCount cfg.per_bridge n i hpb hin
  have hget : ∀ e ∈ (planData cfg n hosts pool q).veth,
      EntryMap.get (planData cfg n hosts pool q).bridges (e.1 / cfg.per_bridge) =
        some (Bridge.new (e.1 / cfg.per_bridge) cfg.pfx
          ⟨pool.next + e.1 / cfg.per_bridge, cfg.net.prefixLen⟩, State.Pending) := by
    intro e he
    obtain ⟨_, h0, hlt⟩ := vethSeg_entry cfg n 0 (pool.next + bc) e he
    rw [Nat.zero_add] at hlt
    show EntryMap.get (bridgeSeg cfg 0 bc pool.next) (e.1 / cfg.per_bridge) = _
    rw [bridgeSeg_get]
    have hdlt := div_lt_bridgeCount cfg.per_bridge n e.1 hpb hlt
    rw [if_pos ⟨Nat.zero_le _, by rw [Nat.zero_add]; exact hdlt⟩]
    rw [Nat.sub_zero]
  refine ⟨hkeys1, ?_, ?_⟩
  · intro e he
    exact ⟨_, _, hget e he, rfl⟩
  · -- assemble the deploy run
    have hlook : ∀ e ∈ (planData cfg n hosts pool q).veth,
        ∃ bv, EntryMap.get ((planData cfg n hosts pool q).bridges).markAll
          (e.1 / cfg.per_bridge) = some bv := by
      intro e he
      rw [get_markAll, hget e he]
      exact ⟨_, rfl⟩
    have hpend : ∀ e ∈ (planData cfg n hosts pool q).veth, e.2.2 = State.Pending := by
      intro e he
      exact (vethSeg_entry cfg n 0 (pool.next + bc) e he).1
    obtain ⟨qd', trW, hw, htrW⟩ := deployVeths_allPending cfg
      ((planData cfg n hosts pool q).bridges).markAll hpb
      (planData cfg n hosts pool q).veth (planData cfg n hosts pool q).qdisc hpend hlook
    have hvxok : ∃ vx' evV,
        deployVxlans ((planData cfg n hosts pool q).bridges).markAll
          (planData cfg n hosts pool q).vxlan = .ok (vx', evV) := by
      show ∃ vx' evV, deployVxlans _ (vxSeg cfg hosts) = .ok (vx', evV)
      unfold vxSeg
      by_cases hh : 1 < hosts.length
      · rw [if_pos hh]
        have hbcpos := bridgeCount_pos cfg.per_bridge n hpb hn
        have hcons : ∃ k0 b0 s0 tl2,
            EntryMap.markAll (bridgeSeg cfg 0 bc pool.next) = (k0, (b0, s0)) :: tl2 := by
          match hb : bridgeSeg cfg 0 bc pool.next with
          | [] =>
            have hlen := bridgeSeg_length cfg bc 0 pool.next
            rw [hb] at hlen
            simp at hlen
            omega
          | (k0, (b0, s0)) :: tl =>
            refine ⟨k0, b0, if s0 = State.Pending then State.Deployed else s0,
              EntryMap.markAll tl, ?_⟩
            rfl
        obtain ⟨k0, b0, s0, tl2, hcons⟩ := hcons
        have hgoal : (planData cfg n hosts pool q).bridges = bridgeSeg cfg 0 bc pool.next := rfl
        rw [hgoal]
        rw [hcons]
        rw [deployVxlans_cons]
        exact ⟨_, _, rfl⟩
      · rw [if_neg hh]
        exact ⟨[], [], rfl⟩
    obtain ⟨vx', evV, hvx⟩ := hvxok
    refine ⟨⟨vx', ((planData cfg n hosts pool q).bridges).markAll,
      ((planData cfg n hosts pool q).veth).markAll, qd'⟩,
      pendingApplies Event.bridgeApply (planData cfg n hosts pool q).bridges ++
        connectors cfg.pfx (EntryMap.values (planData cfg n hosts pool q).bridges) ++
        evV ++ trW, ?_, ?_⟩
    · unfold deploy
      rw [deployBridges_eq]
      dsimp only
      rw [hvx]
      dsimp only
      rw [hw]
      dsimp only
      rw [markAll_values]
    · unfold vethApplies
      rw [List.filterMap_append, List.filterMap_append, List.filterMap_append]
      have h1 : List.filterMap (fun e =>
          match e with
          | Event.vethApply v b => some (v, b)
          | _ => none)
          (pendingApplies Event.bridgeApply (planData cfg n hosts pool q).bridges) = [] := by
        rw [List.filterMap_eq_nil_iff]
        intro e he
        obtain ⟨x, _, hx⟩ := List.mem_filterMap.mp he
        by_cases hp : x.2.2 = State.Pending
        · rw [if_pos hp] at hx
          cases hx
          rfl
        · rw [if_neg hp] at hx
          cases hx
      have h2 : List.filterMap (fun e =>
          match e with
          | Event.vethApply v b => some (v, b)
          | _ => none)
          (connectors cfg.pfx (EntryMap.values (planData cfg n hosts pool q).bridges)) = [] := by
        rw [List.filterMap_eq_nil_iff]
        intro e he
        rw [connectors_eq] at he
        obtain ⟨p, _, rfl⟩ := List.mem_map.mp he
        rfl
      have h3 : List.filterMap (fun e =>
          match e with
          | Event.vethApply v b => some (v, b)
          | _ => none) evV = [] := by
        rw [List.filterMap_eq_nil_iff]
        intro e he
        obtain ⟨b, v, rfl⟩ := deployVxlans_events _ _ _ _ hvx e he
        rfl
      rw [h1, h2, h3]
      show [] ++ [] ++ [] ++ vethApplies trW = _
      rw [htrW]
      simp only [List.nil_append]
      apply List.filterMap_congr
      intro e he
      rw [get_markAll, Option.map_map]
      rfl

/-- Single-host configuration with one instance per bridge, giving a
three-bridge plan for three instances. -/
def cfg31 : Config := ⟨"t3", ⟨0, 16⟩, 1, 100, 4789, 900⟩

/-- A three-bridge, three-instance, single-host plan. -/
def d3 : Data := ((generate_one cfg31 3 [host0] poolC []).getOk).1

/-- The deployed state of the two-bridge plan d8. -/
def d8d : Data := (deploy cfg8 d8).getOk.1

/-- C1 witness: the statement evaluated on the concrete two-instance,
two-bridge plan d8. -/
theorem generate_one_bridge_key_and_deploy_attach_witness :
    (∀ i ∈ EntryMap.keys d8.veth, i / cfg8.per_bridge ∈ EntryMap.keys d8.bridges) ∧
    (∀ e ∈ d8.veth, ∃ b s, EntryMap.get d8.bridges (e.1 / cfg8.per_bridge) = some (b, s) ∧
      b.index = e.1 / cfg8.per_bridge) ∧
    ∃ d' tr, deploy cfg8 d8 = .ok (d', tr) ∧
      vethApplies tr = d8.veth.filterMap (fun e =>
        (EntryMap.get d8.bridges (e.1 / cfg8.per_bridge)).map (fun bv => (e.2.1, bv.1))) :=
  generate_one_bridge_key_and_deploy_attach cfg8 2 hosts8 ⟨0, 100⟩ [] d8 ⟨4, 96⟩ []
    (by decide) (by decide) (by decide) (by decide)

/-- C3 witness: the amended chain statement evaluated on the concrete
three-bridge plan d3. -/
theorem deploy_connects_consecutive_witness :
    bridgeConnects ((deploy cfg31 d3).getOk.2) =
      ((EntryMap.values d3.bridges).zip (EntryMap.values d3.bridges).tail).map
        (fun p => (cfg31.pfx, p.1, p.2)) :=
  deploy_connects_consecutive cfg31 d3 ((deploy cfg31 d3).getOk.1)
    ((deploy cfg31 d3).getOk.2) (by decide)

/-- C3 counterexample: a host plan with three bridges 0, 1, 2 — deploy
creates connector pairs only for the consecutive pairs (0,1) and (1,2);
the unordered pair (0,2) required by the full-mesh claim is never
connected. -/
theorem deploy_full_mesh_cex :
    0 ∈ EntryMap.keys d3.bridges ∧ 2 ∈ EntryMap.keys d3.bridges ∧
    connectorIdxPairs ((deploy cfg31 d3).getOk.2) = [(0, 1), (1, 2)] ∧
    (0, 2) ∉ connectorIdxPairs ((deploy cfg31 d3).getOk.2) := by
  refine ⟨by decide, by decide, by decide, by decide⟩

/-- C10 witness: re-running deploy on the deployed plan d8d returns it
unchanged, re-issuing only the connector command. -/
theorem deploy_rerun_amended_witness :
    deploy cfg8 d8d = .ok (d8d, connectors cfg8.pfx (EntryMap.values d8d.bridges)) :=
  (deploy_rerun_amended cfg8 d8 d8d ((deploy cfg8 d8).getOk.2) (by decide)).2.2.2.2.2.1

/-- C10 counterexample: on a fully deployed Data (every entry Deployed,
nothing Pending) deploy still issues the bridge-connector creation verb —
an `ip link add` of a connector veth pair that was already created by the
first run — refuting the claim that apply verbs are issued only for
Pending entries and that nothing already applied is re-created. -/
theorem deploy_rerun_cex :
    deploy cfg8 d8d = .ok (d8d,
      [Event.bridgeConnect "t8" (Bridge.new 0 "t8" ⟨0, 16⟩) (Bridge.new 1 "t8" ⟨1, 16⟩)]) ∧
    d8d.bridges.all (fun e => decide (e.2.2 = State.Deployed)) = true ∧
    d8d.vxlan.all (fun e => decide (e.2.2 = State.Deployed)) = true ∧
    d8d.veth.all (fun e => decide (e.2.2 = State.Deployed)) = true ∧
    Event.bridgeConnect "t8" (Bridge.new 0 "t8" ⟨0, 16⟩) (Bridge.new 1 "t8" ⟨1, 16⟩) ∈
      (deploy cfg8 d8).getOk.2 := by
  refine ⟨by decide, by decide, by decide, by decide, by decide⟩

end Playground
